import Mathlib

/-!
Verification of the `expect` rule (src/rules/expectRule.ts).

This file shallowly embeds the core of the rule:

* the type-string normalizer (`fixupUnions` / `fixupIntersections`),
* the assertion scanner (`parseAssertions`),
* the node matcher (`getExpectTypeFailures`),
* the per-file verification pass (`walk`), and
* the multi-version search coordinator (`applyWithProgram`),

and proves or refutes the specification's claims about them.

Strings are modelled by Lean `String`, manipulated through their `List Char`
representation.  JavaScript's `String.prototype.split(sep)` (for the non-empty
separators `" | "`, `" & "` and `"\n"` used by the source) is modelled by
`splitSep3` / `splitSep1`, which scan for leftmost, non-overlapping separator
occurrences exactly like the JS function.  JavaScript's default
`Array.prototype.sort` on strings (lexicographic code-unit comparison; all
strings in the statements below are within the BMP, where code-unit and
code-point order coincide) is modelled by `List.insertionSort` with the
lexicographic order `strLe`; any stable sort models `Array.prototype.sort`.

The TypeScript compiler (`ts.createScanner`, the checker, the AST) is an
external collaborator of the rule; its outputs (token streams, line-start
tables, diagnostics, AST nodes, rendered type texts) are inputs of the model.
-/

/-! ## List/string utilities modelling the JavaScript primitives -/

/-- Prepend a character onto the first piece of a split result
(used by `splitSep3` / `splitSep1` when the current character is not
the start of a separator occurrence). -/
def consHead (c : Char) : List (List Char) → List (List Char)
  | [] => [[c]]
  | r :: rs => (c :: r) :: rs

/-- `s.split(sep)` for a three-character separator `[a, b, c]`:
split at the leftmost, non-overlapping occurrences, exactly as in
JavaScript. -/
def splitSep3 (a b c : Char) : List Char → List (List Char)
  | [] => [[]]
  | [x] => [[x]]
  | [x, y] => [[x, y]]
  | x :: y :: z :: rest =>
    if x = a ∧ y = b ∧ z = c then [] :: splitSep3 a b c rest
    else consHead x (splitSep3 a b c (y :: z :: rest))

/-- `s.split(sep)` for a one-character separator. -/
def splitSep1 (a : Char) : List Char → List (List Char)
  | [] => [[]]
  | x :: rest =>
    if x = a then [] :: splitSep1 a rest
    else consHead x (splitSep1 a rest)

/-- `parts.join(sep)` (JavaScript `Array.prototype.join`). -/
def joinSep (sep : List Char) : List (List Char) → List Char
  | [] => []
  | [x] => x
  | x :: y :: l => x ++ sep ++ joinSep sep (y :: l)

/-- Lexicographic comparison of character lists by code point
(JavaScript's default string comparison used by `Array.prototype.sort`). -/
def lexLe : List Char → List Char → Bool
  | [], _ => true
  | _ :: _, [] => false
  | x :: xs, y :: ys =>
    if x.toNat < y.toNat then true
    else if y.toNat < x.toNat then false
    else lexLe xs ys

/-- The order used to model `Array.prototype.sort()` on strings. -/
def strLe (a b : List Char) : Prop := lexLe a b = true

instance : DecidableRel strLe := fun a b => inferInstanceAs (Decidable (lexLe a b = true))

/-- Substring test (JavaScript `RegExp.prototype.test` for a literal pattern). -/
def hasInfix (sub : List Char) : List Char → Bool
  | [] => sub.isEmpty
  | c :: rest => sub.isPrefixOf (c :: rest) || hasInfix sub rest

/-! ## The Type Normalizer (`fixupUnions` / `fixupIntersections`,
expectRule.ts lines 311-322) -/

/-- The intersection separator `" & "`. -/
def sepAmp : List Char := [' ', '&', ' ']

/-- The union separator `" | "`. -/
def sepPipe : List Char := [' ', '|', ' ']

/-- `s.split(" & ")`. -/
def splitAmp (s : List Char) : List (List Char) := splitSep3 ' ' '&' ' ' s

/-- `s.split(" | ")`. -/
def splitPipe (s : List Char) : List (List Char) := splitSep3 ' ' '|' ' ' s

/-- Body of `fixupIntersections`, with fuel for the parenthesis-stripping
recursion (`s.length + 1` is always enough fuel: each recursive step removes
two characters). -/
def fixInterGo : Nat → List Char → List Char
  | 0, s => s
  | fuel + 1, s =>
    if s.head? = some '(' ∧ s.getLast? = some ')' then
      '(' :: (fixInterGo fuel s.tail.dropLast ++ [')'])
    else joinSep sepAmp (List.insertionSort strLe (splitAmp s))

/-- `fixupIntersections` on the character-list representation. -/
def fixInterL (s : List Char) : List Char := fixInterGo (s.length + 1) s

/-- `fixupUnions` on the character-list representation:
`s.split(" | ").map(fixupIntersections).sort().join(" | ")`. -/
def fixUnionL (s : List Char) : List Char :=
  joinSep sepPipe (List.insertionSort strLe ((splitPipe s).map fixInterL))

/-- `fixupIntersections` (expectRule.ts lines 316-322). -/
def fixupIntersections (s : String) : String := ⟨fixInterL s.data⟩

/-- `fixupUnions` (expectRule.ts lines 311-314). -/
def fixupUnions (s : String) : String := ⟨fixUnionL s.data⟩

example : fixupUnions "B | A" = "A | B" := by decide
example : fixupUnions "(A & B) | C" = "(A & B) | C" := by decide
example : fixupUnions "C | (B & A)" = "(A & B) | C" := by decide
example : fixupUnions "(a) & (b)" = "((b & a))" := by decide
example : fixupUnions "((b & a))" = "((a & b))" := by decide

/-! ## Order properties of `strLe` -/

theorem lexLe_cons_iff (x y : Char) (xs ys : List Char) :
    lexLe (x :: xs) (y :: ys) = true ↔
      x.toNat < y.toNat ∨ (x.toNat = y.toNat ∧ lexLe xs ys = true) := by
  rw [lexLe]
  split_ifs with h1 h2
  · simp [h1]
  · simp [h1, h2]; omega
  · have : x.toNat = y.toNat := by omega
    simp [this, h1, h2]

theorem lexLe_total : ∀ a b : List Char, lexLe a b = true ∨ lexLe b a = true
  | [], _ => Or.inl rfl
  | _ :: _, [] => Or.inr rfl
  | x :: xs, y :: ys => by
    rcases Nat.lt_trichotomy x.toNat y.toNat with h | h | h
    · exact Or.inl ((lexLe_cons_iff ..).mpr (Or.inl h))
    · rcases lexLe_total xs ys with ih | ih
      · exact Or.inl ((lexLe_cons_iff ..).mpr (Or.inr ⟨h, ih⟩))
      · exact Or.inr ((lexLe_cons_iff ..).mpr (Or.inr ⟨h.symm, ih⟩))
    · exact Or.inr ((lexLe_cons_iff ..).mpr (Or.inl h))

theorem lexLe_trans : ∀ a b c : List Char,
    lexLe a b = true → lexLe b c = true → lexLe a c = true
  | [], _, _, _, _ => rfl
  | x :: xs, [], _, h, _ => by simp [lexLe] at h
  | x :: xs, y :: ys, [], _, h => by simp [lexLe] at h
  | x :: xs, y :: ys, z :: zs, h1, h2 => by
    rw [lexLe_cons_iff] at h1 h2 ⊢
    rcases h1 with h1 | ⟨h1e, h1t⟩ <;> rcases h2 with h2 | ⟨h2e, h2t⟩
    · exact Or.inl (h1.trans h2)
    · exact Or.inl (h2e ▸ h1)
    · exact Or.inl (h1e ▸ h2)
    · exact Or.inr ⟨h1e.trans h2e, lexLe_trans xs ys zs h1t h2t⟩

theorem lexLe_antisymm : ∀ a b : List Char,
    lexLe a b = true → lexLe b a = true → a = b
  | [], [], _, _ => rfl
  | [], _ :: _, _, h => by simp [lexLe] at h
  | _ :: _, [], h, _ => by simp [lexLe] at h
  | x :: xs, y :: ys, h1, h2 => by
    rw [lexLe_cons_iff] at h1 h2
    have hxy : x.toNat = y.toNat := by omega
    have hx : x = y := Char.ext (UInt32.toNat.inj hxy)
    have ht : xs = ys := by
      apply lexLe_antisymm
      · rcases h1 with h | ⟨_, h⟩; · omega
        exact h
      · rcases h2 with h | ⟨_, h⟩; · omega
        exact h
    rw [hx, ht]

instance : IsTotal (List Char) strLe := ⟨lexLe_total⟩
instance : IsTrans (List Char) strLe := ⟨lexLe_trans⟩
instance : IsAntisymm (List Char) strLe := ⟨lexLe_antisymm⟩

/-! ## Split/join lemmas -/

theorem splitSep3_ne_nil (a b c : Char) : ∀ s : List Char, splitSep3 a b c s ≠ []
  | [] => by simp [splitSep3]
  | [x] => by simp [splitSep3]
  | [x, y] => by simp [splitSep3]
  | x :: y :: z :: rest => by
    rw [splitSep3]
    split_ifs
    · simp
    · rcases hr : splitSep3 a b c (y :: z :: rest) with _ | ⟨r, rs⟩
      · exact absurd hr (splitSep3_ne_nil a b c _)
      · simp [consHead]

/-- Splitting a string that contains no occurrence of the middle separator
character returns the string as a single piece. -/
theorem splitSep3_no_sep (m : Char) : ∀ x : List Char, m ∉ x →
    splitSep3 ' ' m ' ' x = [x]
  | [], _ => rfl
  | [c], _ => rfl
  | [c, d], _ => rfl
  | c :: d :: e :: rest, h => by
    rw [splitSep3, if_neg, splitSep3_no_sep m (d :: e :: rest) (by simp_all), consHead]
    rintro ⟨-, rfl, -⟩
    simp at h

/-- Splitting `x ++ " m " ++ t` where `m ∉ x` peels off `x` as the first
piece: the leftmost separator occurrence is exactly the inserted one. -/
theorem splitSep3_append (m : Char) (hm : m ≠ ' ') :
    ∀ (x t : List Char), m ∉ x →
      splitSep3 ' ' m ' ' (x ++ ' ' :: m :: ' ' :: t) = x :: splitSep3 ' ' m ' ' t
  | [], t, _ => by
    rw [List.nil_append, splitSep3, if_pos ⟨rfl, rfl, rfl⟩]
  | c :: x', t, h => by
    have hmx' : m ∉ x' := fun hx => h (List.mem_cons_of_mem _ hx)
    match x' with
    | [] =>
      show splitSep3 ' ' m ' ' (c :: ' ' :: m :: ' ' :: t) = [c] :: splitSep3 ' ' m ' ' t
      rw [splitSep3, if_neg (by rintro ⟨-, h2, -⟩; exact hm h2.symm),
        splitSep3, if_pos ⟨rfl, rfl, rfl⟩]
      rfl
    | [d] =>
      have ih : splitSep3 ' ' m ' ' (d :: ' ' :: m :: ' ' :: t)
          = [d] :: splitSep3 ' ' m ' ' t := splitSep3_append m hm [d] t hmx'
      show splitSep3 ' ' m ' ' (c :: d :: ' ' :: m :: ' ' :: t)
          = [c, d] :: splitSep3 ' ' m ' ' t
      rw [splitSep3, if_neg (by rintro ⟨-, rfl, -⟩; simp at hmx'), ih]
      rfl
    | d :: e :: x'' =>
      have ih : splitSep3 ' ' m ' ' (d :: e :: (x'' ++ ' ' :: m :: ' ' :: t))
          = (d :: e :: x'') :: splitSep3 ' ' m ' ' t :=
        splitSep3_append m hm (d :: e :: x'') t hmx'
      show splitSep3 ' ' m ' ' (c :: d :: e :: (x'' ++ ' ' :: m :: ' ' :: t))
          = (c :: d :: e :: x'') :: splitSep3 ' ' m ' ' t
      rw [splitSep3, if_neg (by rintro ⟨-, rfl, -⟩; simp at hmx'), ih]
      rfl

/-- Join/split roundtrip: splitting a join recovers the pieces, provided no
piece contains the separator's middle character. -/
theorem splitSep3_joinSep (m : Char) (hm : m ≠ ' ') :
    ∀ l : List (List Char), l ≠ [] → (∀ x ∈ l, m ∉ x) →
      splitSep3 ' ' m ' ' (joinSep [' ', m, ' '] l) = l
  | [x], _, h => by
    rw [joinSep, splitSep3_no_sep m x (h x (List.mem_singleton_self x))]
  | x :: y :: l, _, h => by
    have hjoin : (x ++ [' ', m, ' '] ++ joinSep [' ', m, ' '] (y :: l))
        = x ++ ' ' :: m :: ' ' :: joinSep [' ', m, ' '] (y :: l) := by simp
    rw [joinSep, hjoin, splitSep3_append m hm x _ (h x (List.mem_cons_self x _)),
      splitSep3_joinSep m hm (y :: l) (by simp)
        (fun z hz => h z (List.mem_cons_of_mem x hz))]

/-- Split/join roundtrip in the other direction (holds unconditionally). -/
theorem joinSep_splitSep3 (a b c : Char) : ∀ s : List Char,
    joinSep [a, b, c] (splitSep3 a b c s) = s
  | [] => rfl
  | [x] => rfl
  | [x, y] => rfl
  | x :: y :: z :: rest => by
    rw [splitSep3]
    split_ifs with hs
    · obtain ⟨rfl, rfl, rfl⟩ := hs
      rcases hr : splitSep3 x y z rest with _ | ⟨r, rs⟩
      · exact absurd hr (splitSep3_ne_nil x y z rest)
      · rw [joinSep]
        have := joinSep_splitSep3 x y z rest
        rw [hr] at this
        rw [this]
        rfl
    · rcases hr : splitSep3 a b c (y :: z :: rest) with _ | ⟨r, rs⟩
      · exact absurd hr (splitSep3_ne_nil a b c _)
      · have := joinSep_splitSep3 a b c (y :: z :: rest)
        rw [hr] at this
        rcases rs with _ | ⟨r2, rs2⟩
        · simp only [consHead, joinSep] at this ⊢
          rw [this]
        · simp only [consHead, joinSep, List.cons_append, List.append_assoc] at this ⊢
          rw [this]

/-- Characters of a join come from the separator or from some piece. -/
theorem mem_joinSep (sep : List Char) (ch : Char) :
    ∀ l : List (List Char), ch ∈ joinSep sep l → ch ∈ sep ∨ ∃ x ∈ l, ch ∈ x
  | [], h => by simp [joinSep] at h
  | [x], h => by
    rw [joinSep] at h
    exact Or.inr ⟨x, List.mem_singleton_self x, h⟩
  | x :: y :: l, h => by
    rw [joinSep] at h
    rcases List.mem_append.mp h with h1 | h2
    · rcases List.mem_append.mp h1 with h3 | h4
      · exact Or.inr ⟨x, List.mem_cons_self x _, h3⟩
      · exact Or.inl h4
    · rcases mem_joinSep sep ch (y :: l) h2 with h5 | ⟨z, hz, hc⟩
      · exact Or.inl h5
      · exact Or.inr ⟨z, List.mem_cons_of_mem x hz, hc⟩

/-- The head of a join is the head of the first piece (or a separator
character when the first piece is empty). -/
theorem joinSep_head_ne (sep : List Char) (p : Char)
    (hsep : sep.head? ≠ some p) :
    ∀ l : List (List Char), (∀ x ∈ l, x.head? ≠ some p) →
      (joinSep sep l).head? ≠ some p
  | [], _ => by simp [joinSep]
  | [x], h => by
    rw [joinSep]
    exact h x (List.mem_singleton_self x)
  | x :: y :: l, h => by
    rw [joinSep]
    rcases x with _ | ⟨c, x'⟩
    · rcases sep with _ | ⟨s0, sep'⟩
      · rw [List.nil_append, List.nil_append]
        exact joinSep_head_ne [] p hsep (y :: l) (fun z hz => h z (List.mem_cons_of_mem _ hz))
      · simpa using hsep
    · simpa using h (c :: x') (List.mem_cons_self _ _)

/-- If no piece of `s.split(" m ")` starts with `p ≠ ' '`, neither does `s`. -/
theorem head_ne_of_split (m p : Char) (hp : p ≠ ' ') (s : List Char)
    (h : ∀ x ∈ splitSep3 ' ' m ' ' s, x.head? ≠ some p) : s.head? ≠ some p := by
  have := joinSep_head_ne [' ', m, ' '] p (by simpa using fun hc => hp hc.symm)
    (splitSep3 ' ' m ' ' s) h
  rwa [joinSep_splitSep3] at this

/-! ## Behaviour of the normalizer on clean type strings -/

/-- An intersection member that contains no separator characters and is not
parenthesized.  On strings all of whose members are clean the normalizer is
well behaved; outside this class it need not be (see the counterexample for
claim C2). -/
def cleanAtom (t : List Char) : Prop := '&' ∉ t ∧ '|' ∉ t ∧ t.head? ≠ some '('

/-- A union-of-intersections type string all of whose members are clean. -/
def CleanU (s : List Char) : Prop := ∀ u ∈ splitPipe s, ∀ t ∈ splitAmp u, cleanAtom t

instance (t : List Char) : Decidable (cleanAtom t) := by
  unfold cleanAtom; infer_instance

instance (s : List Char) : Decidable (CleanU s) := by
  unfold CleanU; infer_instance

theorem fixInter_clean (u : List Char) (h : ∀ t ∈ splitAmp u, cleanAtom t) :
    fixInterL u = joinSep sepAmp (List.insertionSort strLe (splitAmp u)) := by
  have hhead : u.head? ≠ some '(' :=
    head_ne_of_split '&' '(' (by decide) u (fun x hx => (h x hx).2.2)
  rw [fixInterL, fixInterGo, if_neg]
  rintro ⟨h1, -⟩
  exact hhead h1

theorem mem_sort_splitAmp {u : List Char} {x : List Char}
    (hx : x ∈ List.insertionSort strLe (splitAmp u)) : x ∈ splitAmp u :=
  (List.perm_insertionSort strLe (splitAmp u)).mem_iff.mp hx

theorem pipe_notMem_fixInter (u : List Char) (h : ∀ t ∈ splitAmp u, cleanAtom t) :
    '|' ∉ fixInterL u := by
  rw [fixInter_clean u h]
  intro hmem
  rcases mem_joinSep sepAmp '|' _ hmem with hs | ⟨x, hx, hc⟩
  · simp [sepAmp] at hs
  · exact (h x (mem_sort_splitAmp hx)).2.1 hc

theorem head_fixInter_ne (u : List Char) (h : ∀ t ∈ splitAmp u, cleanAtom t) :
    (fixInterL u).head? ≠ some '(' := by
  rw [fixInter_clean u h]
  exact joinSep_head_ne sepAmp '(' (by decide) _
    (fun x hx => (h x (mem_sort_splitAmp hx)).2.2)

theorem splitAmp_fixInter (u : List Char) (h : ∀ t ∈ splitAmp u, cleanAtom t) :
    splitAmp (fixInterL u) = List.insertionSort strLe (splitAmp u) := by
  rw [fixInter_clean u h]
  exact splitSep3_joinSep '&' (by decide) _
    (fun hnil => splitSep3_ne_nil ' ' '&' ' ' u
      ((List.perm_insertionSort strLe (splitAmp u)).symm.trans (hnil ▸ List.Perm.refl _)).eq_nil)
    (fun x hx => (h x (mem_sort_splitAmp hx)).1)

theorem fixInter_idem (u : List Char) (h : ∀ t ∈ splitAmp u, cleanAtom t) :
    fixInterL (fixInterL u) = fixInterL u := by
  have hv : ∀ t ∈ splitAmp (fixInterL u), cleanAtom t := by
    rw [splitAmp_fixInter u h]
    exact fun t ht => h t (mem_sort_splitAmp ht)
  rw [fixInter_clean _ hv, splitAmp_fixInter u h,
    List.Sorted.insertionSort_eq (List.sorted_insertionSort strLe (splitAmp u)),
    ← fixInter_clean u h]

theorem map_eq_self_of_mem {α : Type} (f : α → α) :
    ∀ l : List α, (∀ x ∈ l, f x = x) → l.map f = l
  | [], _ => rfl
  | x :: l, h => by
    rw [List.map_cons, h x (List.mem_cons_self x l),
      map_eq_self_of_mem f l (fun y hy => h y (List.mem_cons_of_mem x hy))]

theorem splitPipe_fixUnion (s : List Char) (h : CleanU s) :
    splitPipe (fixUnionL s) = List.insertionSort strLe ((splitPipe s).map fixInterL) := by
  rw [fixUnionL]
  refine splitSep3_joinSep '|' (by decide) _ ?_ ?_
  · intro hnil
    have : (splitPipe s).map fixInterL = [] :=
      ((List.perm_insertionSort strLe _).symm.trans (hnil ▸ List.Perm.refl _)).eq_nil
    exact splitSep3_ne_nil ' ' '|' ' ' s (List.map_eq_nil_iff.mp this)
  · intro x hx
    rcases List.mem_map.mp ((List.perm_insertionSort strLe _).mem_iff.mp hx) with ⟨u, hu, rfl⟩
    exact pipe_notMem_fixInter u (h u hu)

theorem fixUnion_idem (s : List Char) (h : CleanU s) :
    fixUnionL (fixUnionL s) = fixUnionL s := by
  have hmembers : ∀ f ∈ List.insertionSort strLe ((splitPipe s).map fixInterL),
      fixInterL f = f := by
    intro f hf
    rcases List.mem_map.mp ((List.perm_insertionSort strLe _).mem_iff.mp hf) with ⟨u, hu, rfl⟩
    exact fixInter_idem u (h u hu)
  conv_lhs => rw [fixUnionL]
  rw [splitPipe_fixUnion s h, map_eq_self_of_mem _ _ hmembers,
    List.Sorted.insertionSort_eq (List.sorted_insertionSort strLe _), ← fixUnionL]

theorem pipe_notMem_of_clean (u : List Char) (h : ∀ t ∈ splitAmp u, cleanAtom t) :
    '|' ∉ u := by
  intro hmem
  have hu : u = joinSep sepAmp (splitAmp u) := (joinSep_splitSep3 ' ' '&' ' ' u).symm
  rw [hu] at hmem
  rcases mem_joinSep sepAmp '|' _ hmem with hs | ⟨x, hx, hc⟩
  · simp [sepAmp] at hs
  · exact (h x hx).2.1 hc

theorem fixUnion_perm (us us' : List (List Char)) (hne : us ≠ []) (hperm : us.Perm us')
    (h : ∀ u ∈ us, ∀ t ∈ splitAmp u, cleanAtom t) :
    fixUnionL (joinSep sepPipe us) = fixUnionL (joinSep sepPipe us') := by
  have h' : ∀ u ∈ us', ∀ t ∈ splitAmp u, cleanAtom t :=
    fun u hu => h u (hperm.mem_iff.mpr hu)
  have hsplit : splitPipe (joinSep sepPipe us) = us :=
    splitSep3_joinSep '|' (by decide) us hne (fun x hx => pipe_notMem_of_clean x (h x hx))
  have hsplit' : splitPipe (joinSep sepPipe us') = us' :=
    splitSep3_joinSep '|' (by decide) us' (fun hnil => hne ((hnil ▸ hperm).eq_nil))
      (fun x hx => pipe_notMem_of_clean x (h' x hx))
  rw [fixUnionL, fixUnionL, hsplit, hsplit']
  congr 1
  refine List.eq_of_perm_of_sorted ?_
    (List.sorted_insertionSort strLe _) (List.sorted_insertionSort strLe _)
  exact (List.perm_insertionSort strLe _).trans
    ((hperm.map fixInterL).trans (List.perm_insertionSort strLe _).symm)

/-! ## Claim C2: normalizer idempotence and reorder invariance -/

/-- C2 (counterexample).  The claim "for every string s,
`normalize(normalize(s)) = normalize(s)`" is false on the code: the
parenthesis handling of `fixupIntersections` sorts `"(a) & (b)"` into
`"((b & a))"` on the first pass and into `"((a & b))"` on the second. -/
theorem c2_normalize_counterexample :
    fixupUnions (fixupUnions "(a) & (b)") ≠ fixupUnions "(a) & (b)" := by decide

/-- C2 (amended).  The two concrete equalities of the claim hold, and
idempotence and invariance under reordering of the top-level union members
hold for every clean type string (each ` | `-member's ` & `-members contain
no `'&'`/`'|'` character and do not start with `'('`); the universally
quantified claim is false in general (see the counterexample). -/
theorem c2_normalize_amended :
    fixupUnions "B | A" = fixupUnions "A | B" ∧
    fixupUnions "(A & B) | C" = fixupUnions "C | (B & A)" ∧
    (∀ s : String, CleanU s.data → fixupUnions (fixupUnions s) = fixupUnions s) ∧
    (∀ us us' : List (List Char), us ≠ [] → us.Perm us' →
      (∀ u ∈ us, ∀ t ∈ splitAmp u, cleanAtom t) →
      fixUnionL (joinSep sepPipe us) = fixUnionL (joinSep sepPipe us')) := by
  refine ⟨by decide, by decide, ?_, fixUnion_perm⟩
  intro s h
  exact congrArg String.mk (fixUnion_idem s.data h)

/-- Witness for C2: the amended theorem applied at concrete inputs. -/
theorem c2_normalize_witness :
    (CleanU ("num | str".data) ∧
      fixupUnions (fixupUnions "num | str") = fixupUnions "num | str") ∧
    (["B".data, "A".data] ≠ [] ∧ List.Perm ["B".data, "A".data] ["A".data, "B".data] ∧
      (∀ u ∈ [("B".data : List Char), "A".data], ∀ t ∈ splitAmp u, cleanAtom t) ∧
      fixUnionL (joinSep sepPipe ["B".data, "A".data])
        = fixUnionL (joinSep sepPipe ["A".data, "B".data])) :=
  ⟨⟨by decide, c2_normalize_amended.2.2.1 "num | str" (by decide)⟩,
    by decide, by decide, by decide,
    c2_normalize_amended.2.2.2 ["B".data, "A".data] ["A".data, "B".data]
      (by decide) (by decide) (by decide)⟩

/-! ## The Assertion Scanner (`parseAssertions`, expectRule.ts lines 207-268)

`ts.createScanner` (skipTrivia = false) is an external collaborator; its
token stream and the file's `getLineStarts()` table are inputs of the model.
Only the four behaviours distinguished by the `switch` matter: end of file
(end of the list), `WhitespaceTrivia` (`continue`), `SingleLineCommentTrivia`
(directive matching), and everything else — including `NewLineTrivia` and
`MultiLineCommentTrivia`, which are trivia for TypeScript but fall into the
scanner loop's `default` branch, updating `prevTokenPos`. -/

inductive TokenKind where
  | whitespace
  | newline
  | multiLineComment
  | singleLineComment
  | other
  deriving DecidableEq

/-- Trivia in TypeScript's sense (comments, whitespace, line breaks). -/
def isTrivia : TokenKind → Bool
  | .whitespace => true
  | .newline => true
  | .multiLineComment => true
  | .singleLineComment => true
  | .other => false

/-- Token kinds handled by the `default` branch of the scan loop
(everything except whitespace and single-line comments; end of file ends
the token list). -/
def isDefaultKind : TokenKind → Bool
  | .whitespace => false
  | .singleLineComment => false
  | _ => true

structure Token where
  kind : TokenKind
  pos : Nat
  text : String
  deriving DecidableEq

/-- The directive regex `/^\/\/ \$Expect((Type (.*))|Error)/` applied to a
single-line comment's text: `some (some t)` is an `$ExpectType` match with
captured text `t` (`match[3]`, verbatim to the end of the comment),
`some none` is an `$ExpectError` match (`match[1] === "Error"`; the regex
has no end anchor, so any suffix is allowed), `none` is no match. -/
def matchDirective (text : String) : Option (Option String) :=
  if ("// $ExpectType ".data.isPrefixOf text.data) then
    some (some ⟨text.data.drop "// $ExpectType ".data.length⟩)
  else if ("// $ExpectError".data.isPrefixOf text.data) then
    some none
  else none

/-- The `while (lineStarts[curLine + 1] <= pos) curLine++;` loop of
`getLine`; an out-of-range index reads `undefined`, failing the `<=` test.
Fuel-driven; `lineStarts.length` fuel always suffices. -/
def advanceGo (lineStarts : List Nat) (pos : Nat) : Nat → Nat → Nat
  | 0, curLine => curLine
  | fuel + 1, curLine =>
    match lineStarts.get? (curLine + 1) with
    | some s => if s ≤ pos then advanceGo lineStarts pos fuel (curLine + 1) else curLine
    | none => curLine

def advanceLine (lineStarts : List Nat) (pos : Nat) (curLine : Nat) : Nat :=
  advanceGo lineStarts pos lineStarts.length curLine

/-- `lineStarts[curLine] > prevTokenPos` (with JavaScript semantics:
an out-of-range read is `undefined`, and `undefined > x` is false). -/
def isFirstOnLine (lineStarts : List Nat) (curLine : Nat) (prevTokenPos : Int) : Bool :=
  match lineStarts.get? curLine with
  | some v => decide ((v : Int) > prevTokenPos)
  | none => false

/-- The scan result (the `Assertions` interface of the source). -/
structure Assertions where
  errorLines : List Nat
  typeAssertions : List (Nat × String)
  duplicates : List Nat
  deriving DecidableEq

/-- `Set.prototype.add` (insertion-ordered, no duplicates). -/
def setAdd (s : List Nat) (k : Nat) : List Nat := if k ∈ s then s else s ++ [k]

/-- `Map.prototype.has`. -/
def mapHas (m : List (Nat × String)) (k : Nat) : Bool := m.any (fun e => e.1 = k)

/-- `Map.prototype.get`. -/
def mapGet (m : List (Nat × String)) (k : Nat) : Option String :=
  (m.find? (fun e => e.1 = k)).map (·.2)

/-- Removal of a key (`Map.prototype.delete`'s effect on the map). -/
def mapDelete (m : List (Nat × String)) (k : Nat) : List (Nat × String) :=
  m.filter (fun e => ¬ e.1 = k)

/-- State of the scan loop: the table under construction plus the mutable
`prevTokenPos` (initially `-1`) and `curLine` (initially `0`). -/
structure ScanState where
  asserts : Assertions
  prevTokenPos : Int
  curLine : Nat
  deriving DecidableEq

/-- The effect of a table update for one recognized directive at its
applicable line (the bodies of the two `if (match[1] === "Error")` arms). -/
def applyDirective (a : Assertions) : Nat × Option String → Assertions
  | (line, none) =>
    { a with
      duplicates := if line ∈ a.errorLines then a.duplicates ++ [line] else a.duplicates,
      errorLines := setAdd a.errorLines line }
  | (line, some t) =>
    if mapHas a.typeAssertions line then
      { a with
        typeAssertions := mapDelete a.typeAssertions line,
        duplicates := a.duplicates ++ [line] }
    else
      { a with typeAssertions := a.typeAssertions ++ [(line, t)] }

/-- One iteration of the scan loop on a token. -/
def scanStep (lineStarts : List Nat) (st : ScanState) (tok : Token) : ScanState :=
  match tok.kind with
  | .whitespace => st
  | .singleLineComment =>
    match matchDirective tok.text with
    | none => st
    | some d =>
      let cur := advanceLine lineStarts tok.pos st.curLine
      let line := if isFirstOnLine lineStarts cur st.prevTokenPos then cur + 1 else cur
      { st with curLine := cur, asserts := applyDirective st.asserts (line, d) }
  | _ => { st with prevTokenPos := (tok.pos : Int) }

/-- `parseAssertions` (expectRule.ts lines 207-268), over the scanner's
token stream and the file's line-start table. -/
def parseAssertions (lineStarts : List Nat) (tokens : List Token) : Assertions :=
  (tokens.foldl (scanStep lineStarts) ⟨⟨[], [], []⟩, -1, 0⟩).asserts

/-! ## Decomposition of the scan: directive extraction, then table building -/

/-- The recognized directives of a token stream together with their
applicable lines, in scan order (the line/`prevTokenPos` bookkeeping of the
scan loop, without the table). -/
def scanDirectives (lineStarts : List Nat) :
    Int × Nat → List Token → List (Nat × Option String)
  | _, [] => []
  | (prev, cur), tok :: rest =>
    match tok.kind with
    | .whitespace => scanDirectives lineStarts (prev, cur) rest
    | .singleLineComment =>
      match matchDirective tok.text with
      | none => scanDirectives lineStarts (prev, cur) rest
      | some d =>
        let c := advanceLine lineStarts tok.pos cur
        let line := if isFirstOnLine lineStarts c prev then c + 1 else c
        (line, d) :: scanDirectives lineStarts (prev, c) rest
    | _ => scanDirectives lineStarts ((tok.pos : Int), cur) rest

/-- Folding the table-update over a directive list. -/
def buildTable (ds : List (Nat × Option String)) : Assertions :=
  ds.foldl applyDirective ⟨[], [], []⟩

theorem scan_decompose_go (lineStarts : List Nat) :
    ∀ (tokens : List Token) (st : ScanState),
      (tokens.foldl (scanStep lineStarts) st).asserts =
        (scanDirectives lineStarts (st.prevTokenPos, st.curLine) tokens).foldl
          applyDirective st.asserts
  | [], _ => rfl
  | ⟨kind, pos, text⟩ :: rest, st => by
    have ih := fun st' => scan_decompose_go lineStarts rest st'
    cases kind
    case whitespace =>
      rw [List.foldl_cons]
      exact ih st
    case singleLineComment =>
      rw [List.foldl_cons]
      cases hm : matchDirective text
      case none =>
        have h1 : scanStep lineStarts st ⟨.singleLineComment, pos, text⟩ = st := by
          simp only [scanStep, hm]
        have h2 : scanDirectives lineStarts (st.prevTokenPos, st.curLine)
            (⟨.singleLineComment, pos, text⟩ :: rest) =
            scanDirectives lineStarts (st.prevTokenPos, st.curLine) rest := by
          simp only [scanDirectives, hm]
        rw [h1, h2]
        exact ih st
      case some d =>
        set c := advanceLine lineStarts pos st.curLine with hc
        set line := if isFirstOnLine lineStarts c st.prevTokenPos then c + 1 else c with hl
        have h1 : scanStep lineStarts st ⟨.singleLineComment, pos, text⟩ =
            { st with curLine := c, asserts := applyDirective st.asserts (line, d) } := by
          simp only [scanStep, hm]
        have h2 : scanDirectives lineStarts (st.prevTokenPos, st.curLine)
            (⟨.singleLineComment, pos, text⟩ :: rest) =
            (line, d) :: scanDirectives lineStarts (st.prevTokenPos, c) rest := by
          simp only [scanDirectives, hm]
        rw [h1, h2, List.foldl_cons]
        exact ih _
    case newline =>
      rw [List.foldl_cons]
      exact ih _
    case multiLineComment =>
      rw [List.foldl_cons]
      exact ih _
    case other =>
      rw [List.foldl_cons]
      exact ih _

/-- The scan is the table fold over the extracted directives. -/
theorem parseAssertions_eq_buildTable (lineStarts : List Nat) (tokens : List Token) :
    parseAssertions lineStarts tokens =
      buildTable (scanDirectives lineStarts (-1, 0) tokens) :=
  scan_decompose_go lineStarts tokens ⟨⟨[], [], []⟩, -1, 0⟩

/-! ## Characterization of the built table by per-line directive counts -/

/-- Number of `$ExpectError` directives applying to line `L`. -/
def cErr (ds : List (Nat × Option String)) (L : Nat) : Nat :=
  (ds.filter (fun e => e.1 = L ∧ e.2 = none)).length

/-- Number of `$ExpectType` directives applying to line `L`. -/
def cType (ds : List (Nat × Option String)) (L : Nat) : Nat :=
  (ds.filter (fun e => e.1 = L ∧ e.2 ≠ none)).length

theorem mem_setAdd (s : List Nat) (k x : Nat) : x ∈ setAdd s k ↔ x ∈ s ∨ x = k := by
  unfold setAdd
  split_ifs with h
  · constructor
    · exact Or.inl
    · rintro (hx | rfl)
      · exact hx
      · exact h
  · simp

theorem mapHas_append (m : List (Nat × String)) (k L : Nat) (t : String) :
    mapHas (m ++ [(k, t)]) L = (mapHas m L || decide (k = L)) := by
  simp [mapHas]

theorem mapHas_delete (m : List (Nat × String)) (k L : Nat) :
    mapHas (mapDelete m k) L = if L = k then false else mapHas m L := by
  induction m with
  | nil => by_cases hLk : L = k <;> simp [mapHas, mapDelete, hLk]
  | cons e m ih =>
    rcases e with ⟨j, t⟩
    by_cases hjk : j = k
    · rw [show mapDelete ((j, t) :: m) k = mapDelete m k by
        simp [mapDelete, hjk], ih]
      by_cases hLk : L = k
      · simp [hLk]
      · have hjL : ¬ (j = L) := by omega
        simp [hLk, mapHas, hjL]
    · rw [show mapDelete ((j, t) :: m) k = (j, t) :: mapDelete m k by
        simp [mapDelete, hjk]]
      rw [show mapHas ((j, t) :: mapDelete m k) L
          = (decide (j = L) || mapHas (mapDelete m k) L) by simp [mapHas]]
      rw [show mapHas ((j, t) :: m) L = (decide (j = L) || mapHas m L) by simp [mapHas]]
      rw [ih]
      by_cases hLk : L = k
      · have hjL : ¬ (j = L) := by omega
        simp [hLk, hjL, hjk]
      · simp [hLk]

theorem count_append_one (l : List Nat) (x L : Nat) :
    (l ++ [x]).count L = l.count L + (if x = L then 1 else 0) := by
  by_cases h : x = L
  · subst h; simp [List.count_append, List.count_singleton]
  · have : ¬ L = x := fun hc => h hc.symm
    simp [List.count_append, List.count_eq_zero, this, h]

theorem buildTable_go (L : Nat) : ∀ (ds : List (Nat × Option String)) (a : Assertions),
    ((L ∈ (ds.foldl applyDirective a).errorLines ↔ L ∈ a.errorLines ∨ 0 < cErr ds L)
  ∧ ((if mapHas (ds.foldl applyDirective a).typeAssertions L = true then 1 else 0)
      = ((if mapHas a.typeAssertions L = true then 1 else 0) + cType ds L) % 2)
  ∧ ((ds.foldl applyDirective a).duplicates.count L
      = a.duplicates.count L
        + (if L ∈ a.errorLines then cErr ds L else cErr ds L - 1)
        + (cType ds L + (if mapHas a.typeAssertions L = true then 1 else 0)) / 2))
  | [], a => by
    refine ⟨by simp [cErr], ?_, ?_⟩
    · by_cases h : mapHas a.typeAssertions L = true <;> simp [h, cType]
    · by_cases h1 : L ∈ a.errorLines <;> by_cases h2 : mapHas a.typeAssertions L = true <;>
        simp [h1, h2, cErr, cType]
  | (L', dir) :: ds', a => by
    rw [List.foldl_cons]
    obtain ⟨ih1, ih2, ih3⟩ := buildTable_go L ds' (applyDirective a (L', dir))
    rcases dir with _ | t
    · -- $ExpectError directive
      have herr : (applyDirective a (L', none)).errorLines = setAdd a.errorLines L' := rfl
      have htyp : (applyDirective a (L', none)).typeAssertions = a.typeAssertions := rfl
      have hdup : (applyDirective a (L', none)).duplicates
          = if L' ∈ a.errorLines then a.duplicates ++ [L'] else a.duplicates := rfl
      rw [herr] at ih1 ih3
      rw [htyp] at ih2 ih3
      rw [hdup] at ih3
      by_cases hL : L' = L
      · subst hL
        have hcE : cErr ((L', none) :: ds') L' = cErr ds' L' + 1 := by
          simp [cErr, List.filter_cons]
        have hcT : cType ((L', none) :: ds') L' = cType ds' L' := by
          simp [cType, List.filter_cons]
        have hset : L' ∈ setAdd a.errorLines L' := (mem_setAdd ..).mpr (Or.inr rfl)
        refine ⟨?_, ?_, ?_⟩
        · rw [ih1, hcE]
          simp [hset]
        · rw [hcT]; exact ih2
        · rw [ih3, hcE, hcT]
          by_cases h1 : L' ∈ a.errorLines <;>
            simp [hset, h1, count_append_one] <;> omega
      · have hcE : cErr ((L', none) :: ds') L = cErr ds' L := by
          simp [cErr, List.filter_cons, hL]
        have hcT : cType ((L', none) :: ds') L = cType ds' L := by
          simp [cType, List.filter_cons]
        have hmem : (L ∈ setAdd a.errorLines L') ↔ L ∈ a.errorLines := by
          rw [mem_setAdd]
          constructor
          · rintro (h | h)
            · exact h
            · exact absurd h.symm hL
          · exact Or.inl
        refine ⟨?_, ?_, ?_⟩
        · rw [ih1, hcE, hmem]
        · rw [hcT]; exact ih2
        · rw [ih3, hcE, hcT]
          simp only [hmem]
          by_cases h1 : L' ∈ a.errorLines
          · simp only [if_pos h1, count_append_one, if_neg hL]
            omega
          · simp only [if_neg h1]
    · -- $ExpectType directive
      by_cases hhas : mapHas a.typeAssertions L' = true
      · have herr : (applyDirective a (L', some t)).errorLines = a.errorLines := by
          simp [applyDirective, hhas]
        have htyp : (applyDirective a (L', some t)).typeAssertions
            = mapDelete a.typeAssertions L' := by
          simp [applyDirective, hhas]
        have hdup : (applyDirective a (L', some t)).duplicates = a.duplicates ++ [L'] := by
          simp [applyDirective, hhas]
        rw [herr] at ih1 ih3
        rw [htyp] at ih2 ih3
        rw [hdup] at ih3
        by_cases hL : L' = L
        · subst hL
          have hcE : cErr ((L', some t) :: ds') L' = cErr ds' L' := by
            simp [cErr, List.filter_cons]
          have hcT : cType ((L', some t) :: ds') L' = cType ds' L' + 1 := by
            simp [cType, List.filter_cons]
          have hdel : mapHas (mapDelete a.typeAssertions L') L' = false := by
            rw [mapHas_delete]; simp
          rw [hdel] at ih2 ih3
          refine ⟨?_, ?_, ?_⟩
          · rw [ih1, hcE]
          · rw [ih2, hcT, if_pos hhas]
            simp only [Bool.false_eq_true, if_false]
            omega
          · rw [ih3, hcE, hcT, if_pos hhas, count_append_one, if_pos rfl]
            simp only [Bool.false_eq_true, if_false]
            omega
        · have hcE : cErr ((L', some t) :: ds') L = cErr ds' L := by
            simp [cErr, List.filter_cons]
          have hcT : cType ((L', some t) :: ds') L = cType ds' L := by
            simp [cType, List.filter_cons, hL]
          have hdel : mapHas (mapDelete a.typeAssertions L') L = mapHas a.typeAssertions L := by
            rw [mapHas_delete, if_neg (fun h => hL h.symm)]
          rw [hdel] at ih2 ih3
          refine ⟨?_, ?_, ?_⟩
          · rw [ih1, hcE]
          · rw [hcT]; exact ih2
          · rw [ih3, hcE, hcT, count_append_one, if_neg hL]
            omega
      · have herr : (applyDirective a (L', some t)).errorLines = a.errorLines := by
          simp [applyDirective, hhas]
        have htyp : (applyDirective a (L', some t)).typeAssertions
            = a.typeAssertions ++ [(L', t)] := by
          simp [applyDirective, hhas]
        have hdup : (applyDirective a (L', some t)).duplicates = a.duplicates := by
          simp [applyDirective, hhas]
        rw [herr] at ih1 ih3
        rw [htyp] at ih2 ih3
        rw [hdup] at ih3
        by_cases hL : L' = L
        · subst hL
          have hcE : cErr ((L', some t) :: ds') L' = cErr ds' L' := by
            simp [cErr, List.filter_cons]
          have hcT : cType ((L', some t) :: ds') L' = cType ds' L' + 1 := by
            simp [cType, List.filter_cons]
          have happ : mapHas (a.typeAssertions ++ [(L', t)]) L' = true := by
            rw [mapHas_append]; simp
          rw [happ] at ih2 ih3
          refine ⟨?_, ?_, ?_⟩
          · rw [ih1, hcE]
          · rw [ih2, hcT, if_neg hhas, if_pos rfl]
            omega
          · rw [ih3, hcE, hcT, if_neg hhas, if_pos rfl]
        · have hcE : cErr ((L', some t) :: ds') L = cErr ds' L := by
            simp [cErr, List.filter_cons]
          have hcT : cType ((L', some t) :: ds') L = cType ds' L := by
            simp [cType, List.filter_cons, hL]
          have happ : mapHas (a.typeAssertions ++ [(L', t)]) L = mapHas a.typeAssertions L := by
            rw [mapHas_append]; simp [hL]
          rw [happ] at ih2 ih3
          refine ⟨?_, ?_, ?_⟩
          · rw [ih1, hcE]
          · rw [hcT]; exact ih2
          · rw [ih3, hcE, hcT]

/-- The table built from an empty accumulator, characterized per line. -/
theorem buildTable_spec (ds : List (Nat × Option String)) (L : Nat) :
    (L ∈ (buildTable ds).errorLines ↔ 0 < cErr ds L)
  ∧ (mapHas (buildTable ds).typeAssertions L = true ↔ cType ds L % 2 = 1)
  ∧ ((buildTable ds).duplicates.count L = (cErr ds L - 1) + cType ds L / 2) := by
  unfold buildTable
  obtain ⟨h1, h2, h3⟩ := buildTable_go L ds ⟨[], [], []⟩
  refine ⟨?_, ?_, ?_⟩
  · rw [h1]
    simp
  · have hempty : mapHas (⟨[], [], []⟩ : Assertions).typeAssertions L = false := rfl
    rw [hempty] at h2
    simp only [Bool.false_eq_true, if_false] at h2
    by_cases h : mapHas ((ds.foldl applyDirective ⟨[], [], []⟩)).typeAssertions L = true
    · rw [h] at h2
      simp at h2
      simp [h]
      omega
    · simp [h] at h2 ⊢
      omega
  · rw [h3]
    simp [mapHas]

/-! ## Claim C6: per-line invariant of the scan table -/

/-- C6 (counterexample).  Two `$ExpectError` comments applying to the same
line leave the line in the error-line set *and* record it as a duplicate,
so a line is not "in at most one of" the two; the source keeps the `Set`
membership when flagging a duplicate (`errorLines.add` runs regardless). -/
theorem c6_scanner_invariant_counterexample :
    (1 ∈ (parseAssertions [0, 16]
      [⟨.singleLineComment, 0, "// $ExpectError"⟩, ⟨.newline, 15, "\n"⟩,
       ⟨.other, 16, "x"⟩, ⟨.other, 17, ";"⟩, ⟨.whitespace, 18, " "⟩,
       ⟨.singleLineComment, 19, "// $ExpectError"⟩]).errorLines) ∧
    (1 ∈ (parseAssertions [0, 16]
      [⟨.singleLineComment, 0, "// $ExpectError"⟩, ⟨.newline, 15, "\n"⟩,
       ⟨.other, 16, "x"⟩, ⟨.other, 17, ";"⟩, ⟨.whitespace, 18, " "⟩,
       ⟨.singleLineComment, 19, "// $ExpectError"⟩]).duplicates) := by decide

/-- C6 (amended).  After the scan, a line is pending in the type-assertion
map iff an odd number of `$ExpectType` directives apply to it (each second
occurrence voids the pending one and records a duplicate); it is in the
error-line set iff at least one `$ExpectError` directive applies to it (a
second occurrence records a duplicate but does *not* remove the line from
the set); and it is recorded as a duplicate iff at least two directives of
a single kind apply to it.  The two kinds are independent per line, but a
line can be in the error set and in the duplicate list simultaneously, and
pending and duplicate simultaneously (three `$ExpectType` comments). -/
theorem c6_scanner_invariant_amended (lineStarts : List Nat) (tokens : List Token) (L : Nat) :
    ((L ∈ (parseAssertions lineStarts tokens).errorLines
        ↔ 0 < cErr (scanDirectives lineStarts (-1, 0) tokens) L)
  ∧ (mapHas (parseAssertions lineStarts tokens).typeAssertions L = true
        ↔ cType (scanDirectives lineStarts (-1, 0) tokens) L % 2 = 1)
  ∧ (L ∈ (parseAssertions lineStarts tokens).duplicates
        ↔ 2 ≤ cErr (scanDirectives lineStarts (-1, 0) tokens) L
          ∨ 2 ≤ cType (scanDirectives lineStarts (-1, 0) tokens) L)) := by
  rw [parseAssertions_eq_buildTable]
  obtain ⟨h1, h2, h3⟩ := buildTable_spec (scanDirectives lineStarts (-1, 0) tokens) L
  refine ⟨h1, h2, ?_⟩
  rw [← List.count_pos_iff, h3]
  omega

/-! ## Claim C8: the directive grammar -/

/-- C8 (counterexample).  The directive regex has no end anchor: the comment
`"// $ExpectError oops"` is recognized as an `$ExpectError` directive even
though it has a suffix after `$ExpectError` (and it is not an `$ExpectType`
form). -/
theorem c8_directive_grammar_counterexample :
    matchDirective "// $ExpectError oops" = some none ∧
    "// $ExpectError oops" ≠ "// $ExpectError" ∧
    "// $ExpectType ".data.isPrefixOf "// $ExpectError oops".data = false := by decide

/-- C8 (amended).  A single-line comment is recognized iff it *begins with*
`"// $ExpectType "` (the captured type text is the verbatim remainder, to the
end of the comment) or *begins with* `"// $ExpectError"` (any suffix after it
is accepted); no prefix before `"// $Expect"` is allowed. -/
theorem c8_directive_grammar_amended (text : String) :
    (matchDirective text ≠ none ↔
      ("// $ExpectType ".data.isPrefixOf text.data = true ∨
       "// $ExpectError".data.isPrefixOf text.data = true))
  ∧ (∀ rest : List Char, text.data = "// $ExpectType ".data ++ rest →
      matchDirective text = some (some ⟨rest⟩))
  ∧ (∀ rest : List Char, text.data = "// $ExpectError".data ++ rest →
      matchDirective text = some none) := by
  refine ⟨?_, ?_, ?_⟩
  · unfold matchDirective
    split_ifs with h1 h2
    · simp [h1]
    · simp [h1, h2]
    · simp [h1, h2]
  · intro rest hrest
    have hpre : "// $ExpectType ".data.isPrefixOf text.data = true := by
      rw [hrest]
      exact List.isPrefixOf_iff_prefix.mpr (List.prefix_append _ _)
    unfold matchDirective
    rw [if_pos hpre]
    congr 1
    rw [hrest, List.drop_left]
  · intro rest hrest
    have hpre : "// $ExpectError".data.isPrefixOf text.data = true := by
      rw [hrest]
      exact List.isPrefixOf_iff_prefix.mpr (List.prefix_append _ _)
    have hnot : ("// $ExpectType ".data.isPrefixOf text.data) = false := by
      cases hb : ("// $ExpectType ".data.isPrefixOf text.data)
      · rfl
      · obtain ⟨u, hu⟩ := List.isPrefixOf_iff_prefix.mp hb
        have hT : text.data.get? 10 = some 'T' := by
          rw [← hu, List.get?_append (by decide)]
          decide
        rw [hrest, List.get?_append (by decide)] at hT
        exact absurd hT (by decide)
    unfold matchDirective
    rw [if_neg (by simp [hnot]), if_pos hpre]

/-- Witness for C8: the amended grammar at concrete comments. -/
theorem c8_directive_grammar_witness :
    ("// $ExpectType number[]").data = "// $ExpectType ".data ++ "number[]".data ∧
    matchDirective "// $ExpectType number[]" = some (some "number[]") ∧
    ("// $ExpectError x").data = "// $ExpectError".data ++ " x".data ∧
    matchDirective "// $ExpectError x" = some none :=
  ⟨by decide,
    (c8_directive_grammar_amended "// $ExpectType number[]").2.1 "number[]".data (by decide),
    by decide,
    (c8_directive_grammar_amended "// $ExpectError x").2.2 " x".data (by decide)⟩

/-! ## Line computation from positions -/

/-- The line containing position `pos`: the greatest index `L` with
`lineStarts[L] <= pos` (for a sorted line-start table beginning with 0).
Models `ts.getLineAndCharacterOfPosition(...).line`, i.e. the source's
`lineOfPosition`. -/
def lineOfPos (lineStarts : List Nat) (pos : Nat) : Nat :=
  lineStarts.countP (fun s => s ≤ pos) - 1

theorem countP_ge_of_get (pos : Nat) :
    ∀ (ls : List Nat), ls.Pairwise (· < ·) → ∀ (i v : Nat), ls.get? i = some v → v ≤ pos →
      i + 1 ≤ ls.countP (fun s => s ≤ pos)
  | [], _, i, v, hget, _ => by simp at hget
  | a :: t, hsort, 0, v, hget, hv => by
    simp at hget
    subst hget
    rw [List.countP_cons, if_pos (by simpa using hv)]
    omega
  | a :: t, hsort, j + 1, v, hget, hv => by
    simp only [List.get?_cons_succ] at hget
    have hmem : v ∈ t := List.get?_mem hget
    have hav : a < v := (List.pairwise_cons.mp hsort).1 v hmem
    have ih := countP_ge_of_get pos t (List.pairwise_cons.mp hsort).2 j v hget hv
    rw [List.countP_cons, if_pos (by simp; omega)]
    omega

theorem countP_le_of_get (pos : Nat) :
    ∀ (ls : List Nat), ls.Pairwise (· < ·) → ∀ (i v : Nat), ls.get? i = some v → pos < v →
      ls.countP (fun s => s ≤ pos) ≤ i
  | [], _, i, v, hget, _ => by simp at hget
  | a :: t, hsort, 0, v, hget, hv => by
    simp at hget
    subst hget
    rw [List.countP_cons, if_neg (by simp; omega)]
    have : ∀ b ∈ t, ¬ (b ≤ pos) := by
      intro b hb
      have := (List.pairwise_cons.mp hsort).1 b hb
      omega
    rw [List.countP_eq_zero.mpr (by simpa using this)]
  | a :: t, hsort, j + 1, v, hget, hv => by
    simp only [List.get?_cons_succ] at hget
    have ih := countP_le_of_get pos t (List.pairwise_cons.mp hsort).2 j v hget hv
    rw [List.countP_cons]
    split_ifs <;> omega

theorem advanceGo_spec (ls : List Nat) (hsort : ls.Pairwise (· < ·)) (pos : Nat) :
    ∀ (fuel cur : Nat), cur ≤ lineOfPos ls pos → lineOfPos ls pos < cur + fuel →
      advanceGo ls pos fuel cur = lineOfPos ls pos
  | 0, cur, hle, hlt => by omega
  | fuel + 1, cur, hle, hlt => by
    cases hget : ls.get? (cur + 1) with
    | none =>
      have hlen : ls.length ≤ cur + 1 := List.get?_eq_none.mp hget
      have hcnt := List.countP_le_length (l := ls) (p := fun s => s ≤ pos)
      have hgoal : cur = lineOfPos ls pos := by unfold lineOfPos at *; omega
      rw [advanceGo, hget]
      exact hgoal
    | some s =>
      rw [advanceGo, hget]
      show (if s ≤ pos then advanceGo ls pos fuel (cur + 1) else cur) = lineOfPos ls pos
      by_cases hs : s ≤ pos
      · rw [if_pos hs]
        have hlow := countP_ge_of_get pos ls hsort (cur + 1) s hget hs
        exact advanceGo_spec ls hsort pos fuel (cur + 1)
          (by unfold lineOfPos at *; omega) (by omega)
      · rw [if_neg hs]
        have hhigh := countP_le_of_get pos ls hsort (cur + 1) s hget (by omega)
        unfold lineOfPos at *
        omega

theorem advanceLine_spec (ls : List Nat) (pos cur : Nat)
    (hsort : ls.Pairwise (· < ·)) (hhead : ls.head? = some 0)
    (hcur : cur ≤ lineOfPos ls pos) :
    advanceLine ls pos cur = lineOfPos ls pos := by
  have hlen : 1 ≤ ls.length := by
    cases ls
    · simp at hhead
    · simp
  have hbound : lineOfPos ls pos < ls.length := by
    have := List.countP_le_length (l := ls) (p := fun s => s ≤ pos)
    have hpos : 0 < ls.countP (fun s => s ≤ pos) := by
      cases ls with
      | nil => simp at hhead
      | cons a t =>
        simp at hhead
        subst hhead
        rw [List.countP_cons, if_pos (by simp)]
        omega
    unfold lineOfPos
    omega
  exact advanceGo_spec ls hsort pos ls.length cur hcur (by omega)

theorem countP_pos_of_head (ls : List Nat) (pos : Nat) (hhead : ls.head? = some 0) :
    0 < ls.countP (fun s => s ≤ pos) := by
  cases ls with
  | nil => simp at hhead
  | cons a t =>
    simp at hhead
    subst hhead
    rw [List.countP_cons, if_pos (by simp)]
    omega

theorem lineOfPos_lt_length (ls : List Nat) (pos : Nat) (hhead : ls.head? = some 0) :
    lineOfPos ls pos < ls.length := by
  have h1 := countP_pos_of_head ls pos hhead
  have h2 := List.countP_le_length (l := ls) (p := fun s => s ≤ pos)
  unfold lineOfPos
  omega

theorem lineOfPos_get (ls : List Nat) (pos : Nat) (hsort : ls.Pairwise (· < ·))
    (hhead : ls.head? = some 0) :
    ∃ v, ls.get? (lineOfPos ls pos) = some v ∧ v ≤ pos := by
  have hlt := lineOfPos_lt_length ls pos hhead
  refine ⟨ls.get ⟨lineOfPos ls pos, hlt⟩, List.get?_eq_get hlt, ?_⟩
  by_contra hc
  have := countP_le_of_get pos ls hsort (lineOfPos ls pos) _ (List.get?_eq_get hlt) (by omega)
  have hpos := countP_pos_of_head ls pos hhead
  unfold lineOfPos at this
  omega

theorem lineOfPos_mono (ls : List Nat) (p p' : Nat) (h : p ≤ p') :
    lineOfPos ls p ≤ lineOfPos ls p' := by
  have : ls.countP (fun s => s ≤ p) ≤ ls.countP (fun s => s ≤ p') := by
    induction ls with
    | nil => simp
    | cons a t ih =>
      rw [List.countP_cons, List.countP_cons]
      split_ifs with h1 h2 <;> simp_all <;> omega
  unfold lineOfPos
  omega

/-- If a position lies on line `L` then it is at or after `L`'s line start. -/
theorem lineStart_le_of_lineOfPos (ls : List Nat) (q v : Nat) (hsort : ls.Pairwise (· < ·))
    (hhead : ls.head? = some 0) (hv : ls.get? (lineOfPos ls q) = some v) :
    v ≤ q := by
  obtain ⟨w, hw, hwle⟩ := lineOfPos_get ls q hsort hhead
  rw [hv] at hw
  cases hw
  exact hwle

/-- Position of the token most recently handled by the scan loop's `default`
branch (`prevTokenPos`; `-1` when there has been none). -/
def lastDefPos (pre : List Token) : Int :=
  pre.foldl (fun acc t => if isDefaultKind t.kind then (t.pos : Int) else acc) (-1)

theorem lastDefPos_append_one (pre : List Token) (t : Token) :
    lastDefPos (pre ++ [t])
      = if isDefaultKind t.kind then (t.pos : Int) else lastDefPos pre := by
  unfold lastDefPos
  rw [List.foldl_append]
  rfl

theorem lastDefPos_mem : ∀ pre : List Token,
    lastDefPos pre = -1 ∨
      ∃ u ∈ pre, isDefaultKind u.kind = true ∧ lastDefPos pre = (u.pos : Int) := by
  intro pre
  induction pre using List.reverseRecOn with
  | nil => exact Or.inl rfl
  | append_singleton pre t ih =>
    rw [lastDefPos_append_one]
    by_cases hd : isDefaultKind t.kind = true
    · exact Or.inr ⟨t, by simp, hd, by rw [if_pos hd]⟩
    · rw [if_neg hd]
      rcases ih with h | ⟨u, hu, hud, hup⟩
      · exact Or.inl h
      · exact Or.inr ⟨u, by simp [hu], hud, hup⟩

theorem lastDefPos_ge (pre : List Token)
    (hpw : List.Pairwise (fun a b => a.pos ≤ b.pos) pre) :
    ∀ u ∈ pre, isDefaultKind u.kind = true → (u.pos : Int) ≤ lastDefPos pre := by
  induction pre using List.reverseRecOn with
  | nil => intro u hu; simp at hu
  | append_singleton pre t ih =>
    intro u hu hud
    rw [lastDefPos_append_one]
    have hpw' : List.Pairwise (fun a b => a.pos ≤ b.pos) pre :=
      hpw.sublist (List.sublist_append_left pre [t])
    rcases List.mem_append.mp hu with hmem | hmem
    · have hle : u.pos ≤ t.pos := by
        have := (List.pairwise_append.mp hpw).2.2 u hmem t (by simp)
        exact this
      by_cases hd : isDefaultKind t.kind = true
      · rw [if_pos hd]
        exact_mod_cast hle
      · rw [if_neg hd]
        exact ih hpw' u hmem hud
    · have : u = t := by simpa using hmem
      subst this
      rw [if_pos hud]

/-- The `lineStarts[curLine] > prevTokenPos` test is equivalent to: no token
handled by the `default` branch starts on the comment's line. -/
theorem isFirst_iff (ls : List Nat) (hsort : ls.Pairwise (· < ·))
    (hhead : ls.head? = some 0) (pre : List Token) (tpos : Nat)
    (hpw : List.Pairwise (fun a b => a.pos ≤ b.pos) pre)
    (hle : ∀ u ∈ pre, u.pos ≤ tpos) :
    (isFirstOnLine ls (lineOfPos ls tpos) (lastDefPos pre) = true
      ↔ (∀ u ∈ pre, isDefaultKind u.kind = true →
          lineOfPos ls u.pos ≠ lineOfPos ls tpos)) := by
  obtain ⟨v, hv, hvle⟩ := lineOfPos_get ls tpos hsort hhead
  rw [isFirstOnLine, hv]
  simp only [decide_eq_true_eq]
  constructor
  · intro hgt u hu hud heq
    have h1 : (u.pos : Int) ≤ lastDefPos pre := lastDefPos_ge pre hpw u hu hud
    have h2 : v ≤ u.pos := by
      rw [← heq] at hv
      exact lineStart_le_of_lineOfPos ls u.pos v hsort hhead hv
    omega
  · intro hall
    rcases lastDefPos_mem pre with hneg | ⟨u, hu, hud, hup⟩
    · rw [hneg]
      omega
    · have hne := hall u hu hud
      have humono : lineOfPos ls u.pos ≤ lineOfPos ls tpos :=
        lineOfPos_mono ls u.pos tpos (hle u hu)
      have hlt : lineOfPos ls u.pos < lineOfPos ls tpos := by omega
      have hvu : u.pos < v := by
        by_contra hc
        have hgc := countP_ge_of_get u.pos ls hsort (lineOfPos ls tpos) v hv (by omega)
        have hpos := countP_pos_of_head ls u.pos hhead
        have hposT := countP_pos_of_head ls tpos hhead
        unfold lineOfPos at hgc hlt
        omega
      rw [hup]
      omega

/-- The applicable-line rule as the (amended) specification words it: a
recognized directive applies to the next line when no token other than
whitespace and single-line comments (i.e. no token handled by the `default`
branch of the scan loop) starts on the comment's line; otherwise it applies
to the comment's own line. -/
def specLines (lineStarts : List Nat) : List Token → List Token → List (Nat × Option String)
  | _, [] => []
  | pre, t :: rest =>
    match t.kind with
    | .singleLineComment =>
      match matchDirective t.text with
      | some d =>
        (if ∀ u ∈ pre, isDefaultKind u.kind = true →
            lineOfPos lineStarts u.pos ≠ lineOfPos lineStarts t.pos
          then lineOfPos lineStarts t.pos + 1 else lineOfPos lineStarts t.pos, d)
          :: specLines lineStarts (pre ++ [t]) rest
      | none => specLines lineStarts (pre ++ [t]) rest
    | _ => specLines lineStarts (pre ++ [t]) rest

theorem scanDirectives_spec_go (ls : List Nat) (hsort : ls.Pairwise (· < ·))
    (hhead : ls.head? = some 0) :
    ∀ (rest pre : List Token) (cur : Nat),
      List.Pairwise (fun a b => a.pos ≤ b.pos) (pre ++ rest) →
      (∀ t ∈ rest, cur ≤ lineOfPos ls t.pos) →
      scanDirectives ls (lastDefPos pre, cur) rest = specLines ls pre rest
  | [], pre, cur, _, _ => rfl
  | t :: rest', pre, cur, hpw, hc => by
    have hpw' : List.Pairwise (fun a b => a.pos ≤ b.pos) ((pre ++ [t]) ++ rest') := by
      rw [List.append_assoc]
      exact hpw
    have hpwpre : List.Pairwise (fun a b => a.pos ≤ b.pos) pre :=
      hpw.sublist (List.sublist_append_left pre (t :: rest'))
    have hprele : ∀ u ∈ pre, u.pos ≤ t.pos := fun u hu =>
      (List.pairwise_append.mp hpw).2.2 u hu t (by simp)
    have htle : ∀ u ∈ rest', t.pos ≤ u.pos := by
      intro u hu
      have := (List.pairwise_append.mp hpw').2.2
      exact this t (by simp) u hu
    have hc' : ∀ u ∈ rest', lineOfPos ls t.pos ≤ lineOfPos ls u.pos := fun u hu =>
      lineOfPos_mono ls t.pos u.pos (htle u hu)
    rcases t with ⟨kind, pos, text⟩
    cases kind
    case whitespace =>
      have h1 : scanDirectives ls (lastDefPos pre, cur) (⟨.whitespace, pos, text⟩ :: rest')
          = scanDirectives ls (lastDefPos pre, cur) rest' := rfl
      have h2 : specLines ls pre (⟨.whitespace, pos, text⟩ :: rest')
          = specLines ls (pre ++ [⟨.whitespace, pos, text⟩]) rest' := rfl
      have h3 : lastDefPos (pre ++ [⟨.whitespace, pos, text⟩]) = lastDefPos pre := by
        rw [lastDefPos_append_one, if_neg (by simp [isDefaultKind])]
      rw [h1, h2, ← h3]
      exact scanDirectives_spec_go ls hsort hhead rest' _ cur hpw'
        (fun u hu => hc u (List.mem_cons_of_mem _ hu))
    case singleLineComment =>
      cases hm : matchDirective text
      case none =>
        have h1 : scanDirectives ls (lastDefPos pre, cur)
            (⟨.singleLineComment, pos, text⟩ :: rest')
            = scanDirectives ls (lastDefPos pre, cur) rest' := by
          simp only [scanDirectives, hm]
        have h2 : specLines ls pre (⟨.singleLineComment, pos, text⟩ :: rest')
            = specLines ls (pre ++ [⟨.singleLineComment, pos, text⟩]) rest' := by
          simp only [specLines, hm]
        have h3 : lastDefPos (pre ++ [⟨.singleLineComment, pos, text⟩]) = lastDefPos pre := by
          rw [lastDefPos_append_one, if_neg (by simp [isDefaultKind])]
        rw [h1, h2, ← h3]
        exact scanDirectives_spec_go ls hsort hhead rest' _ cur hpw'
          (fun u hu => hc u (List.mem_cons_of_mem _ hu))
      case some d =>
        have hadv : advanceLine ls pos cur = lineOfPos ls pos :=
          advanceLine_spec ls pos cur hsort hhead (hc _ (List.mem_cons_self _ _))
        have h1 : scanDirectives ls (lastDefPos pre, cur)
            (⟨.singleLineComment, pos, text⟩ :: rest')
            = ((if isFirstOnLine ls (lineOfPos ls pos) (lastDefPos pre)
                 then lineOfPos ls pos + 1 else lineOfPos ls pos), d)
              :: scanDirectives ls (lastDefPos pre, lineOfPos ls pos) rest' := by
          simp only [scanDirectives, hm, hadv]
        have h2 : specLines ls pre (⟨.singleLineComment, pos, text⟩ :: rest')
            = ((if ∀ u ∈ pre, isDefaultKind u.kind = true →
                  lineOfPos ls u.pos ≠ lineOfPos ls pos
                then lineOfPos ls pos + 1 else lineOfPos ls pos), d)
              :: specLines ls (pre ++ [⟨.singleLineComment, pos, text⟩]) rest' := by
          simp only [specLines, hm]
        rw [h1, h2]
        have hiff := isFirst_iff ls hsort hhead pre pos hpwpre hprele
        have hif : (if isFirstOnLine ls (lineOfPos ls pos) (lastDefPos pre)
              then lineOfPos ls pos + 1 else lineOfPos ls pos)
            = (if ∀ u ∈ pre, isDefaultKind u.kind = true →
                  lineOfPos ls u.pos ≠ lineOfPos ls pos
                then lineOfPos ls pos + 1 else lineOfPos ls pos) := by
          by_cases hcond : ∀ u ∈ pre, isDefaultKind u.kind = true →
              lineOfPos ls u.pos ≠ lineOfPos ls pos
          · rw [if_pos hcond, if_pos (hiff.mpr hcond)]
          · rw [if_neg hcond, if_neg (fun hb => hcond (hiff.mp hb))]
        have h3 : lastDefPos (pre ++ [⟨.singleLineComment, pos, text⟩]) = lastDefPos pre := by
          rw [lastDefPos_append_one, if_neg (by simp [isDefaultKind])]
        rw [hif, ← h3,
          scanDirectives_spec_go ls hsort hhead rest' _ (lineOfPos ls pos) hpw' hc']
    case newline =>
      have h1 : scanDirectives ls (lastDefPos pre, cur) (⟨.newline, pos, text⟩ :: rest')
          = scanDirectives ls ((pos : Int), cur) rest' := rfl
      have h2 : specLines ls pre (⟨.newline, pos, text⟩ :: rest')
          = specLines ls (pre ++ [⟨.newline, pos, text⟩]) rest' := rfl
      have h3 : lastDefPos (pre ++ [⟨.newline, pos, text⟩]) = (pos : Int) := by
        rw [lastDefPos_append_one]
        rfl
      rw [h1, h2, ← h3]
      exact scanDirectives_spec_go ls hsort hhead rest' _ cur hpw'
        (fun u hu => hc u (List.mem_cons_of_mem _ hu))
    case multiLineComment =>
      have h1 : scanDirectives ls (lastDefPos pre, cur)
          (⟨.multiLineComment, pos, text⟩ :: rest')
          = scanDirectives ls ((pos : Int), cur) rest' := rfl
      have h2 : specLines ls pre (⟨.multiLineComment, pos, text⟩ :: rest')
          = specLines ls (pre ++ [⟨.multiLineComment, pos, text⟩]) rest' := rfl
      have h3 : lastDefPos (pre ++ [⟨.multiLineComment, pos, text⟩]) = (pos : Int) := by
        rw [lastDefPos_append_one]
        rfl
      rw [h1, h2, ← h3]
      exact scanDirectives_spec_go ls hsort hhead rest' _ cur hpw'
        (fun u hu => hc u (List.mem_cons_of_mem _ hu))
    case other =>
      have h1 : scanDirectives ls (lastDefPos pre, cur) (⟨.other, pos, text⟩ :: rest')
          = scanDirectives ls ((pos : Int), cur) rest' := rfl
      have h2 : specLines ls pre (⟨.other, pos, text⟩ :: rest')
          = specLines ls (pre ++ [⟨.other, pos, text⟩]) rest' := rfl
      have h3 : lastDefPos (pre ++ [⟨.other, pos, text⟩]) = (pos : Int) := by
        rw [lastDefPos_append_one]
        rfl
      rw [h1, h2, ← h3]
      exact scanDirectives_spec_go ls hsort hhead rest' _ cur hpw'
        (fun u hu => hc u (List.mem_cons_of_mem _ hu))

/-! ## Claim C7: the applicable line of a directive -/

/-- C7 (counterexample).  A multi-line comment is trivia, so by the claim a
directive comment preceded only by a multi-line comment on its line has no
preceding non-trivia token and should apply to the *next* line (line 1); but
multi-line comments fall into the scan loop's `default` branch and update
`prevTokenPos`, so the code applies the assertion to the comment's own line
(line 0). -/
theorem c7_applicable_line_counterexample :
    isTrivia TokenKind.multiLineComment = true ∧
    (parseAssertions [0, 26]
      [⟨.multiLineComment, 0, "/* c */"⟩,
       ⟨.singleLineComment, 8, "// $ExpectType n"⟩]).typeAssertions = [(0, "n")] := by
  decide

/-- C7 (amended).  For a sorted line-start table and a position-ordered token
stream, a recognized directive applies to the next line iff no token *other
than whitespace and single-line comments* (rather than "no non-trivia
token": newlines and multi-line comments also count) starts on the comment's
line, and otherwise to the comment's own line; in particular the claim's
concrete scenario holds: `// $ExpectType number` alone on line 0 directly
above `const x = 1;` applies to line 1. -/
theorem c7_applicable_line_amended :
    (∀ (ls : List Nat) (tokens : List Token),
      ls.Pairwise (· < ·) → ls.head? = some 0 →
      List.Pairwise (fun a b => a.pos ≤ b.pos) tokens →
      scanDirectives ls (-1, 0) tokens = specLines ls [] tokens) ∧
    (parseAssertions [0, 22]
      [⟨.singleLineComment, 0, "// $ExpectType number"⟩, ⟨.newline, 21, "\n"⟩,
       ⟨.other, 22, "const"⟩]).typeAssertions = [(1, "number")] := by
  constructor
  · intro ls tokens hsort hhead hmono
    exact scanDirectives_spec_go ls hsort hhead tokens [] 0 (by simpa using hmono)
      (fun t _ => Nat.zero_le _)
  · decide

/-- Witness for C7: the amended refinement applied at the concrete
own-line-comment stream. -/
theorem c7_applicable_line_witness :
    ([0, 22] : List Nat).Pairwise (· < ·) ∧
    ([0, 22] : List Nat).head? = some 0 ∧
    List.Pairwise (fun (a : Token) (b : Token) => a.pos ≤ b.pos)
      [⟨.singleLineComment, 0, "// $ExpectType number"⟩, ⟨.newline, 21, "\n"⟩,
       ⟨.other, 22, "const"⟩] ∧
    scanDirectives [0, 22] (-1, 0)
      [⟨.singleLineComment, 0, "// $ExpectType number"⟩, ⟨.newline, 21, "\n"⟩,
       ⟨.other, 22, "const"⟩]
      = specLines [0, 22] []
        [⟨.singleLineComment, 0, "// $ExpectType number"⟩, ⟨.newline, 21, "\n"⟩,
         ⟨.other, 22, "const"⟩] :=
  ⟨by decide, by decide, by decide,
    c7_applicable_line_amended.1 [0, 22] _ (by decide) (by decide) (by decide)⟩

/-! ## The Node Matcher (`getExpectTypeFailures` / `iterate`,
expectRule.ts lines 277-309)

The syntax tree and the checker are external collaborators: a node carries
its kind (only `ExpressionStatement` is distinguished), its `getStart`
position, its `getEnd` position, and its `forEachChild` children (for an
`ExpressionStatement`, exactly its expression).  `typeOf n` models
`checker.typeToString(checker.getTypeAtLocation(n), undefined,
TypeFormatFlags.NoTruncation)`. -/

inductive NodeKind where
  | expressionStatement
  | other
  deriving DecidableEq

mutual
inductive Node where
  | mk (kind : NodeKind) (pos : Nat) (endPos : Nat) (children : NodeList)

inductive NodeList where
  | nil
  | cons (head : Node) (tail : NodeList)
end

def NodeList.toList : NodeList → List Node
  | .nil => []
  | .cons n l => n :: l.toList

def Node.kind : Node → NodeKind
  | .mk k _ _ _ => k

def Node.pos : Node → Nat
  | .mk _ p _ _ => p

def Node.endPos : Node → Nat
  | .mk _ _ e _ => e

/-- The node's `forEachChild` children. -/
def Node.childList : Node → List Node
  | .mk _ _ _ ch => ch.toList

mutual
def Node.size : Node → Nat
  | .mk _ _ _ ch => 1 + ch.size

def NodeList.size : NodeList → Nat
  | .nil => 1
  | .cons n l => n.size + l.size
end

/-- Total size of a worklist of nodes (termination fuel for the traversal). -/
def wlSize (l : List Node) : Nat := (l.map Node.size).sum

/-- `if (node.kind === ts.SyntaxKind.ExpressionStatement) node = node.expression;`
(`forEachChild` of an expression statement visits exactly its expression,
its first and only child). -/
def unwrapExpr (n : Node) : Node :=
  match n with
  | .mk .expressionStatement _ _ (.cons c _) => c
  | _ => n

structure UnmetExpectation where
  node : Node
  expected : String
  actual : String

structure MatchState where
  typeAssertions : List (Nat × String)
  unmet : List UnmetExpectation

/-- The pre-order traversal of `iterate`, as a fuel-driven worklist loop:
the node is processed, then the children of the (possibly unwrapped) node
are traversed, then the remaining worklist — exactly the order of the
recursive `ts.forEachChild` calls.  `wlSize` of the initial worklist is
always sufficient fuel. -/
def iterGo (typeOf : Node → String) (ls : List Nat) :
    Nat → List Node → MatchState → MatchState
  | 0, _, st => st
  | _ + 1, [], st => st
  | fuel + 1, n :: rest, st =>
    match mapGet st.typeAssertions (lineOfPos ls n.pos) with
    | some expected =>
      let n' := unwrapExpr n
      let actual := fixupUnions (typeOf n')
      iterGo typeOf ls fuel (n'.childList ++ rest)
        { typeAssertions := mapDelete st.typeAssertions (lineOfPos ls n.pos),
          unmet := if actual ≠ expected then st.unmet ++ [⟨n', expected, actual⟩]
                   else st.unmet }
    | none => iterGo typeOf ls fuel (n.childList ++ rest) st

/-- `getExpectTypeFailures` (expectRule.ts lines 277-309); the final
`typeAssertions` component's keys are the `unusedAssertions`. -/
def getExpectTypeFailures (ls : List Nat) (roots : List Node) (typeOf : Node → String)
    (typeAssertions : List (Nat × String)) : MatchState :=
  iterGo typeOf ls (wlSize roots) roots ⟨typeAssertions, []⟩

theorem wlSize_cons (n : Node) (l : List Node) :
    wlSize (n :: l) = Node.size n + wlSize l := by
  simp [wlSize]

theorem wlSize_append (l1 l2 : List Node) :
    wlSize (l1 ++ l2) = wlSize l1 + wlSize l2 := by
  simp [wlSize]

theorem toList_size : ∀ ch : NodeList, wlSize ch.toList + 1 = ch.size
  | .nil => by simp [wlSize, NodeList.toList, NodeList.size]
  | .cons n l => by
    have ih := toList_size l
    rw [NodeList.toList, wlSize_cons, NodeList.size]
    omega

theorem node_size_pos (n : Node) : 1 ≤ Node.size n := by
  rcases n with ⟨k, p, e, ch⟩
  rw [Node.size]
  omega

theorem childList_size_lt (n : Node) : wlSize n.childList < Node.size n := by
  rcases n with ⟨k, p, e, ch⟩
  rw [Node.childList, Node.size]
  have := toList_size ch
  omega

theorem mem_size_le {n : Node} {l : List Node} (h : n ∈ l) : Node.size n ≤ wlSize l := by
  induction l with
  | nil => simp at h
  | cons a t ih =>
    rw [wlSize_cons]
    rcases List.mem_cons.mp h with rfl | hmem
    · omega
    · have := ih hmem
      omega

theorem unwrap_size_le (n : Node) : Node.size (unwrapExpr n) ≤ Node.size n := by
  rcases n with ⟨k, p, e, ch⟩
  cases k <;> cases ch
  case expressionStatement.cons c rest =>
    have h1 : c ∈ (NodeList.cons c rest).toList := by
      rw [NodeList.toList]
      exact List.mem_cons_self c rest.toList
    have h2 := mem_size_le h1
    have h3 := toList_size (NodeList.cons c rest)
    show Node.size c ≤ Node.size (Node.mk .expressionStatement p e (.cons c rest))
    rw [Node.size]
    omega
  all_goals exact Nat.le_refl _

theorem unwrap_childList_lt (n : Node) : wlSize (unwrapExpr n).childList < Node.size n :=
  lt_of_lt_of_le (childList_size_lt _) (unwrap_size_le n)

/-- Nodes reachable from a worklist: its members and, recursively, their
`forEachChild` children. -/
inductive Reach (roots : List Node) : Node → Prop where
  | root {n : Node} : n ∈ roots → Reach roots n
  | child {m n : Node} : Reach roots m → n ∈ m.childList → Reach roots n

theorem reach_nil {n : Node} (h : Reach [] n) : False := by
  induction h with
  | root h => simp at h
  | child _ _ ih => exact ih

theorem reach_lift {l l' : List Node} (hsub : ∀ x ∈ l, Reach l' x) :
    ∀ {n : Node}, Reach l n → Reach l' n := by
  intro n h
  induction h with
  | root h => exact hsub _ h
  | child _ hc ih => exact Reach.child ih hc

theorem reach_append_left {l l' : List Node} {n : Node} (h : Reach l n) :
    Reach (l ++ l') n :=
  reach_lift (fun x hx => Reach.root (List.mem_append_left _ hx)) h

theorem reach_append_right {l l' : List Node} {n : Node} (h : Reach l' n) :
    Reach (l ++ l') n :=
  reach_lift (fun x hx => Reach.root (List.mem_append_right _ hx)) h

theorem reach_cons_elim {n₀ : Node} {rest : List Node} {n : Node}
    (h : Reach (n₀ :: rest) n) :
    n = n₀ ∨ Reach n₀.childList n ∨ Reach rest n := by
  induction h with
  | root h =>
    rcases List.mem_cons.mp h with rfl | hmem
    · exact Or.inl rfl
    · exact Or.inr (Or.inr (Reach.root hmem))
  | child _ hc ih =>
    rcases ih with rfl | hr | hr
    · exact Or.inr (Or.inl (Reach.root hc))
    · exact Or.inr (Or.inl (Reach.child hr hc))
    · exact Or.inr (Or.inr (Reach.child hr hc))

theorem mapGet_delete (m : List (Nat × String)) (k L : Nat) :
    mapGet (mapDelete m k) L = if L = k then none else mapGet m L := by
  induction m with
  | nil => by_cases hLk : L = k <;> simp [mapGet, mapDelete, hLk]
  | cons e m ih =>
    rcases e with ⟨j, t⟩
    by_cases hjk : j = k
    · rw [show mapDelete ((j, t) :: m) k = mapDelete m k by
        simp [mapDelete, hjk], ih]
      by_cases hLk : L = k
      · simp [hLk]
      · have hjL : ¬ (j = L) := by omega
        simp [hLk, mapGet, List.find?_cons, hjL]
    · rw [show mapDelete ((j, t) :: m) k = (j, t) :: mapDelete m k by
        simp [mapDelete, hjk]]
      by_cases hjL : j = L
      · subst hjL
        simp [mapGet, List.find?_cons, hjk]
      · rw [show mapGet ((j, t) :: mapDelete m k) L = mapGet (mapDelete m k) L by
          simp [mapGet, List.find?_cons, hjL]]
        rw [show mapGet ((j, t) :: m) L = mapGet m L by
          simp [mapGet, List.find?_cons, hjL]]
        exact ih

/-- Entries of the `unmet` list are only ever appended. -/
theorem iterGo_unmet_mono (typeOf : Node → String) (ls : List Nat) :
    ∀ (fuel : Nat) (wl : List Node) (st : MatchState) (e : UnmetExpectation),
      e ∈ st.unmet → e ∈ (iterGo typeOf ls fuel wl st).unmet
  | 0, _, _, _, he => he
  | _ + 1, [], _, _, he => he
  | fuel + 1, n :: rest, st, e, he => by
    rw [iterGo]
    cases hm : mapGet st.typeAssertions (lineOfPos ls n.pos)
    case none => exact iterGo_unmet_mono typeOf ls fuel _ _ e he
    case some expected =>
      refine iterGo_unmet_mono typeOf ls fuel _ _ e ?_
      dsimp only
      split_ifs
      · exact List.mem_append_left _ he
      · exact he

/-- Soundness of recorded failures: every entry's `actual` is the
normalization of the checker's rendering at its (unwrapped) node, and an
entry is only recorded when that normalized actual text differs from the
raw expected text. -/
theorem iterGo_unmet_sound (typeOf : Node → String) (ls : List Nat) :
    ∀ (fuel : Nat) (wl : List Node) (st : MatchState),
      (∀ e ∈ st.unmet, e.actual = fixupUnions (typeOf e.node) ∧ e.actual ≠ e.expected) →
      ∀ e ∈ (iterGo typeOf ls fuel wl st).unmet,
        e.actual = fixupUnions (typeOf e.node) ∧ e.actual ≠ e.expected
  | 0, _, _, hst => hst
  | _ + 1, [], _, hst => hst
  | fuel + 1, n :: rest, st, hst => by
    rw [iterGo]
    cases hm : mapGet st.typeAssertions (lineOfPos ls n.pos)
    case none => exact iterGo_unmet_sound typeOf ls fuel _ _ hst
    case some expected =>
      refine iterGo_unmet_sound typeOf ls fuel _ _ ?_
      dsimp only
      split_ifs with hne
      · intro e he
        rcases List.mem_append.mp he with h1 | h2
        · exact hst e h1
        · have : e = ⟨unwrapExpr n, expected, fixupUnions (typeOf (unwrapExpr n))⟩ := by
            simpa using h2
          subst this
          exact ⟨rfl, hne⟩
      · exact hst

theorem iterGo_nil (typeOf : Node → String) (ls : List Nat) (f : Nat) (st : MatchState) :
    iterGo typeOf ls f [] st = st := by
  cases f <;> rfl

theorem iterGo_cons_none (typeOf : Node → String) (ls : List Nat) (fuel : Nat)
    (n : Node) (rest : List Node) (st : MatchState)
    (h : mapGet st.typeAssertions (lineOfPos ls n.pos) = none) :
    iterGo typeOf ls (fuel + 1) (n :: rest) st
      = iterGo typeOf ls fuel (n.childList ++ rest) st := by
  rw [iterGo, h]

theorem iterGo_cons_some (typeOf : Node → String) (ls : List Nat) (fuel : Nat)
    (n : Node) (rest : List Node) (st : MatchState) (expected : String)
    (h : mapGet st.typeAssertions (lineOfPos ls n.pos) = some expected) :
    iterGo typeOf ls (fuel + 1) (n :: rest) st
      = iterGo typeOf ls fuel ((unwrapExpr n).childList ++ rest)
          ⟨mapDelete st.typeAssertions (lineOfPos ls n.pos),
            if fixupUnions (typeOf (unwrapExpr n)) ≠ expected
              then st.unmet
                ++ [⟨unwrapExpr n, expected, fixupUnions (typeOf (unwrapExpr n))⟩]
              else st.unmet⟩ := by
  rw [iterGo, h]

/-- Either a node is left unchanged by the expression-statement unwrap, or
(for a well-formed expression statement) its child list is exactly the
unwrapped expression. -/
theorem unwrap_split (n : Node)
    (hwf : n.kind = NodeKind.expressionStatement → ∃ c, n.childList = [c]) :
    unwrapExpr n = n ∨ n.childList = [unwrapExpr n] := by
  rcases n with ⟨k, p, e, ch⟩
  cases k
  case other => exact Or.inl rfl
  case expressionStatement =>
    cases ch
    case nil => exact Or.inl rfl
    case cons c t =>
      obtain ⟨c', hc'⟩ := hwf rfl
      rw [Node.childList, NodeList.toList] at hc'
      have hcc : c = c' ∧ t.toList = [] := by
        constructor
        · exact (List.cons_eq_cons.mp hc').1
        · exact (List.cons_eq_cons.mp hc').2
      refine Or.inr ?_
      show (NodeList.cons c t).toList = [unwrapExpr (Node.mk .expressionStatement p e (.cons c t))]
      rw [NodeList.toList, hcc.2]
      rfl

/-- Core bisimulation for C1: when every node on line `L` has its normalized
actual type equal to the pending expected text `exp`, the run with the
assertion `L ↦ exp` and the run without it produce the same unmet list.
`wl1`/`m1` belong to the run with the assertion, `wl2`/`m2` to the run
without; the transient disjunct covers the one extra node the second run
visits after the first run's expression-statement unwrap redirected the
traversal. -/
theorem iterGo_erase (typeOf : Node → String) (ls : List Nat) (L : Nat) (exp : String)
    (P : Node → Prop)
    (Hclose : ∀ n, P n → ∀ c ∈ n.childList, P c)
    (Hline : ∀ n, P n → lineOfPos ls (unwrapExpr n).pos = lineOfPos ls n.pos)
    (Hwf : ∀ n, P n → n.kind = NodeKind.expressionStatement → ∃ c, n.childList = [c])
    (Heq : ∀ n, P n → lineOfPos ls n.pos = L → fixupUnions (typeOf (unwrapExpr n)) = exp) :
    ∀ (f2 f1 : Nat) (wl1 wl2 : List Node) (m1 m2 : List (Nat × String))
      (u : List UnmetExpectation),
      wlSize wl1 ≤ f1 → wlSize wl2 ≤ f2 →
      (∀ k, ¬ k = L → mapGet m1 k = mapGet m2 k) →
      mapGet m2 L = none →
      ((wl1 = wl2 ∧ (∀ n ∈ wl1, P n) ∧
         (mapGet m1 L = some exp ∨ mapGet m1 L = none)) ∨
       (∃ e rest, wl2 = e :: rest ∧ wl1 = e.childList ++ rest ∧ P e ∧
         (∀ n ∈ rest, P n) ∧ lineOfPos ls e.pos = L ∧ mapGet m1 L = none)) →
      (iterGo typeOf ls f1 wl1 ⟨m1, u⟩).unmet = (iterGo typeOf ls f2 wl2 ⟨m2, u⟩).unmet
  | f2, f1, wl1, wl2, m1, m2, u, hf1, hf2, hagree, hm2L, hphase => by
    rcases hphase with ⟨rfl, hP, hm1L⟩ | ⟨e, rest, rfl, rfl, hPe, hPrest, heL, hm1L⟩
    · -- lockstep phase
      match wl1, f1, f2 with
      | [], _, _ => rw [iterGo_nil, iterGo_nil]
      | n :: rest, f1, f2 =>
        have hpos : 1 ≤ Node.size n := node_size_pos n
        have hw : wlSize (n :: rest) = Node.size n + wlSize rest := wlSize_cons n rest
        match f1, f2, hf1, hf2 with
        | 0, _, hf1, _ => rw [hw] at hf1; omega
        | _ + 1, 0, _, hf2 => rw [hw] at hf2; omega
        | g1 + 1, g2 + 1, hf1, hf2 =>
          have hPn : P n := hP n (List.mem_cons_self n rest)
          have hPrest : ∀ x ∈ rest, P x := fun x hx => hP x (List.mem_cons_of_mem n hx)
          have hkidsP : ∀ c ∈ n.childList, P c := Hclose n hPn
          have hsz1 : wlSize (n.childList ++ rest) ≤ g1 := by
            rw [wlSize_append]
            have := childList_size_lt n
            omega
          have hsz1' : wlSize ((unwrapExpr n).childList ++ rest) ≤ g1 := by
            rw [wlSize_append]
            have := unwrap_childList_lt n
            omega
          have hsz2 : wlSize (n.childList ++ rest) ≤ g2 := by
            rw [wlSize_append]
            have := childList_size_lt n
            omega
          have hsz2' : wlSize ((unwrapExpr n).childList ++ rest) ≤ g2 := by
            rw [wlSize_append]
            have := unwrap_childList_lt n
            omega
          by_cases hlineL : lineOfPos ls n.pos = L
          · -- the processed node lies on the designated line
            have hm2line : mapGet m2 (lineOfPos ls n.pos) = none := by rw [hlineL]; exact hm2L
            rw [iterGo_cons_none typeOf ls g2 n rest ⟨m2, u⟩ hm2line]
            rcases hm1L with hm1L | hm1L
            · -- the assertion is still pending in run 1: it is consumed silently
              have hm1line : mapGet m1 (lineOfPos ls n.pos) = some exp := by
                rw [hlineL]; exact hm1L
              rw [iterGo_cons_some typeOf ls g1 n rest ⟨m1, u⟩ exp hm1line]
              rw [if_neg (by simp [Heq n hPn hlineL])]
              have hagree' : ∀ k, ¬ k = L →
                  mapGet (mapDelete m1 (lineOfPos ls n.pos)) k = mapGet m2 k := by
                intro k hk
                rw [mapGet_delete, hlineL, if_neg hk]
                exact hagree k hk
              have hdelnone : mapGet (mapDelete m1 (lineOfPos ls n.pos)) L = none := by
                rw [mapGet_delete, hlineL, if_pos rfl]
              rcases unwrap_split n (Hwf n hPn) with hid | hsingle
              · -- no redirect: worklists coincide again
                rw [hid]
                exact iterGo_erase typeOf ls L exp P Hclose Hline Hwf Heq g2 g1
                  (n.childList ++ rest) (n.childList ++ rest) _ m2 u hsz1 hsz2
                  hagree' hm2L
                  (Or.inl ⟨rfl, by
                    intro x hx
                    rcases List.mem_append.mp hx with h | h
                    · exact hkidsP x h
                    · exact hPrest x h, Or.inr hdelnone⟩)
              · -- redirect: run 2 will visit the expression once more
                have hwl2 : n.childList ++ rest = unwrapExpr n :: rest := by
                  rw [hsingle]; rfl
                rw [hwl2]
                exact iterGo_erase typeOf ls L exp P Hclose Hline Hwf Heq g2 g1
                  ((unwrapExpr n).childList ++ rest) (unwrapExpr n :: rest) _ m2 u
                  hsz1' (by
                    rw [wlSize_cons]
                    have h1 := childList_size_lt n
                    rw [hsingle, wlSize_cons] at h1
                    have h2 : wlSize ([] : List Node) = 0 := rfl
                    omega)
                  hagree' hm2L
                  (Or.inr ⟨unwrapExpr n, rest, rfl, rfl, by
                    rcases unwrap_split n (Hwf n hPn) with h | h
                    · rw [h]; exact hPn
                    · exact hkidsP _ (by rw [h]; exact List.mem_singleton_self _),
                    hPrest, by rw [Hline n hPn, hlineL], hdelnone⟩)
            · -- the assertion was already consumed: both runs agree at L too
              have hm1line : mapGet m1 (lineOfPos ls n.pos) = none := by
                rw [hlineL]; exact hm1L
              rw [iterGo_cons_none typeOf ls g1 n rest ⟨m1, u⟩ hm1line]
              exact iterGo_erase typeOf ls L exp P Hclose Hline Hwf Heq g2 g1
                (n.childList ++ rest) (n.childList ++ rest) m1 m2 u hsz1 hsz2
                hagree hm2L
                (Or.inl ⟨rfl, by
                  intro x hx
                  rcases List.mem_append.mp hx with h | h
                  · exact hkidsP x h
                  · exact hPrest x h, Or.inr hm1L⟩)
          · -- a different line: both runs behave identically
            have hcommon : mapGet m1 (lineOfPos ls n.pos) = mapGet m2 (lineOfPos ls n.pos) :=
              hagree _ hlineL
            cases hv : mapGet m2 (lineOfPos ls n.pos) with
            | none =>
              rw [iterGo_cons_none typeOf ls g1 n rest ⟨m1, u⟩ (by rw [hcommon, hv]),
                iterGo_cons_none typeOf ls g2 n rest ⟨m2, u⟩ hv]
              exact iterGo_erase typeOf ls L exp P Hclose Hline Hwf Heq g2 g1
                (n.childList ++ rest) (n.childList ++ rest) m1 m2 u hsz1 hsz2
                hagree hm2L
                (Or.inl ⟨rfl, by
                  intro x hx
                  rcases List.mem_append.mp hx with h | h
                  · exact hkidsP x h
                  · exact hPrest x h, hm1L⟩)
            | some expected' =>
              rw [iterGo_cons_some typeOf ls g1 n rest ⟨m1, u⟩ expected'
                  (by rw [hcommon, hv]),
                iterGo_cons_some typeOf ls g2 n rest ⟨m2, u⟩ expected' hv]
              have hagree' : ∀ k, ¬ k = L →
                  mapGet (mapDelete m1 (lineOfPos ls n.pos)) k
                    = mapGet (mapDelete m2 (lineOfPos ls n.pos)) k := by
                intro k hk
                rw [mapGet_delete, mapGet_delete]
                split_ifs with h
                · rfl
                · exact hagree k hk
              have hm2L' : mapGet (mapDelete m2 (lineOfPos ls n.pos)) L = none := by
                rw [mapGet_delete]
                split_ifs with h
                · rfl
                · exact hm2L
              have hm1L' : mapGet (mapDelete m1 (lineOfPos ls n.pos)) L = some exp
                  ∨ mapGet (mapDelete m1 (lineOfPos ls n.pos)) L = none := by
                rw [mapGet_delete]
                split_ifs with h
                · exact Or.inr rfl
                · exact hm1L
              have hPn' : P (unwrapExpr n) := by
                rcases unwrap_split n (Hwf n hPn) with h | h
                · rw [h]; exact hPn
                · exact hkidsP _ (by rw [h]; exact List.mem_singleton_self _)
              exact iterGo_erase typeOf ls L exp P Hclose Hline Hwf Heq g2 g1
                ((unwrapExpr n).childList ++ rest) ((unwrapExpr n).childList ++ rest)
                _ _ _ hsz1' hsz2' hagree' hm2L'
                (Or.inl ⟨rfl, by
                  intro x hx
                  rcases List.mem_append.mp hx with h | h
                  · exact Hclose _ hPn' x h
                  · exact hPrest x h, hm1L'⟩)
    · -- transient phase: run 2 visits the redirected-away expression `e`
      match f2, hf2 with
      | 0, hf2 =>
        rw [wlSize_cons] at hf2
        have := node_size_pos e
        omega
      | g2 + 1, hf2 =>
        have hm2line : mapGet m2 (lineOfPos ls e.pos) = none := by rw [heL]; exact hm2L
        rw [iterGo_cons_none typeOf ls g2 e rest ⟨m2, u⟩ hm2line]
        exact iterGo_erase typeOf ls L exp P Hclose Hline Hwf Heq g2 f1
          (e.childList ++ rest) (e.childList ++ rest) m1 m2 u hf1
          (by
            rw [wlSize_append] at *
            rw [wlSize_cons] at hf2
            have := childList_size_lt e
            omega)
          hagree hm2L
          (Or.inl ⟨rfl, by
            intro x hx
            rcases List.mem_append.mp hx with h | h
            · exact Hclose e hPe x h
            · exact hPrest x h, Or.inr hm1L⟩)

/-- Completeness of recorded failures: if line `L` has a pending assertion
`exp`, some node on line `L` is reachable, and every node on line `L` has
normalized actual text `act ≠ exp`, then the traversal records a failure
with that expected and actual text. -/
theorem iterGo_unmet_exists (typeOf : Node → String) (ls : List Nat) (L : Nat)
    (exp act : String)
    (P : Node → Prop)
    (Hclose : ∀ n, P n → ∀ c ∈ n.childList, P c)
    (Hline : ∀ n, P n → lineOfPos ls (unwrapExpr n).pos = lineOfPos ls n.pos)
    (Hwf : ∀ n, P n → n.kind = NodeKind.expressionStatement → ∃ c, n.childList = [c])
    (Hact : ∀ n, P n → lineOfPos ls n.pos = L → fixupUnions (typeOf (unwrapExpr n)) = act)
    (hne : act ≠ exp) :
    ∀ (fuel : Nat) (wl : List Node) (m : List (Nat × String)) (u : List UnmetExpectation),
      wlSize wl ≤ fuel →
      (∀ n ∈ wl, P n) →
      mapGet m L = some exp →
      (∃ n, Reach wl n ∧ lineOfPos ls n.pos = L) →
      ∃ e ∈ (iterGo typeOf ls fuel wl ⟨m, u⟩).unmet, e.expected = exp ∧ e.actual = act
  | fuel, [], m, u, _, _, _, hwit => absurd hwit (by
      rintro ⟨n, hr, -⟩
      exact reach_nil hr)
  | fuel, n₀ :: rest, m, u, hsz, hP, hm, hwit => by
    have hw : wlSize (n₀ :: rest) = Node.size n₀ + wlSize rest := wlSize_cons n₀ rest
    have hpos := node_size_pos n₀
    match fuel, hsz with
    | 0, hsz => rw [hw] at hsz; omega
    | g + 1, hsz =>
      have hPn : P n₀ := hP n₀ (List.mem_cons_self n₀ rest)
      have hPrest : ∀ x ∈ rest, P x := fun x hx => hP x (List.mem_cons_of_mem n₀ hx)
      have hkidsP : ∀ c ∈ n₀.childList, P c := Hclose n₀ hPn
      by_cases hl : lineOfPos ls n₀.pos = L
      · -- the head node consumes the assertion and records the failure
        have hm' : mapGet m (lineOfPos ls n₀.pos) = some exp := by rw [hl]; exact hm
        rw [iterGo_cons_some typeOf ls g n₀ rest ⟨m, u⟩ exp hm']
        have hact : fixupUnions (typeOf (unwrapExpr n₀)) = act := Hact n₀ hPn hl
        rw [if_pos (by rw [hact]; exact hne)]
        refine ⟨⟨unwrapExpr n₀, exp, fixupUnions (typeOf (unwrapExpr n₀))⟩,
          iterGo_unmet_mono typeOf ls g _ _ _ ?_, rfl, hact⟩
        exact List.mem_append_right _ (List.mem_singleton_self _)
      · obtain ⟨nw, hrw, hlw⟩ := hwit
        have hnww : ¬ nw = n₀ := fun h => hl (h ▸ hlw)
        rcases reach_cons_elim hrw with rfl | hrkids | hrrest
        · exact absurd rfl hnww
        all_goals {
          cases hv : mapGet m (lineOfPos ls n₀.pos) with
          | none =>
            rw [iterGo_cons_none typeOf ls g n₀ rest ⟨m, u⟩ hv]
            refine iterGo_unmet_exists typeOf ls L exp act P Hclose Hline Hwf Hact hne
              g (n₀.childList ++ rest) m u
              (by rw [wlSize_append]; have := childList_size_lt n₀; omega)
              (by
                intro x hx
                rcases List.mem_append.mp hx with h | h
                · exact hkidsP x h
                · exact hPrest x h)
              hm ?_
            first
            | exact ⟨nw, reach_append_left hrkids, hlw⟩
            | exact ⟨nw, reach_append_right hrrest, hlw⟩
          | some expected' =>
            rw [iterGo_cons_some typeOf ls g n₀ rest ⟨m, u⟩ expected' hv]
            have hm2 : mapGet (mapDelete m (lineOfPos ls n₀.pos)) L = some exp := by
              rw [mapGet_delete, if_neg (fun h => hl h.symm)]
              exact hm
            have hPu : P (unwrapExpr n₀) := by
              rcases unwrap_split n₀ (Hwf n₀ hPn) with h | h
              · rw [h]; exact hPn
              · exact hkidsP _ (by rw [h]; exact List.mem_singleton_self _)
            refine iterGo_unmet_exists typeOf ls L exp act P Hclose Hline Hwf Hact hne
              g ((unwrapExpr n₀).childList ++ rest) _ _
              (by rw [wlSize_append]; have := unwrap_childList_lt n₀; omega)
              (by
                intro x hx
                rcases List.mem_append.mp hx with h | h
                · exact Hclose _ hPu x h
                · exact hPrest x h)
              hm2 ?_
            first
            | exact ⟨nw, reach_append_right hrrest, hlw⟩
            | -- nw is reachable from n₀'s children; it survives the redirect
              rcases unwrap_split n₀ (Hwf n₀ hPn) with hid | hsingle
              · exact ⟨nw, reach_append_left
                  (show Reach (unwrapExpr n₀).childList nw by rw [hid]; exact hrkids), hlw⟩
              · rw [hsingle] at hrkids
                rcases reach_cons_elim hrkids with rfl | hrc | hrnil
                · exact absurd hlw (by
                    rw [Hline n₀ hPn]
                    exact hl)
                · exact ⟨nw, reach_append_left hrc, hlw⟩
                · exact absurd hrnil (fun h => reach_nil h)
        }

theorem lineOfPos_single (p : Nat) : lineOfPos [0] p = 0 := by
  simp [lineOfPos, List.countP_cons]

/-! ## Claim C1: the node matcher's comparison -/

/-- C1 (counterexample).  The node matcher normalizes only the *actual*
rendered text, never the expected text: with expected text `"B | A"` and the
checker rendering `"B | A"`, the two normalized forms are (trivially) equal,
yet a TypeMismatch failure is recorded, because the code compares
`fixupUnions(actual) = "A | B"` against the raw expected string `"B | A"`. -/
theorem c1_node_matcher_counterexample :
    fixupUnions "B | A" = "A | B" ∧
    (getExpectTypeFailures [0] [Node.mk .other 0 1 .nil] (fun _ => "B | A")
      [(0, "B | A")]).unmet.length = 1 := by decide

/-- C1 (amended).  The node matcher normalizes only the actual rendered
text and compares it against the *raw* expected text: (a) every recorded
failure has `actual = fixupUnions (typeOf node)` and `actual ≠ expected`;
(b) if every reachable node on the asserted line satisfies
`fixupUnions (typeOf (unwrap n)) = exp` (for the raw expected text `exp`),
no failure is produced for that line — deleting the assertion does not
change the unmet list; (c) if every reachable node on the asserted line has
normalized actual text `act ≠ exp` and some node lies on that line, a
failure with exactly that expected/actual pair is recorded. -/
theorem c1_node_matcher_amended :
    (∀ (ls : List Nat) (roots : List Node) (typeOf : Node → String)
       (m : List (Nat × String)),
       ∀ e ∈ (getExpectTypeFailures ls roots typeOf m).unmet,
         e.actual = fixupUnions (typeOf e.node) ∧ e.actual ≠ e.expected) ∧
    (∀ (ls : List Nat) (roots : List Node) (typeOf : Node → String)
       (m : List (Nat × String)) (L : Nat) (exp : String),
       (∀ n, Reach roots n → lineOfPos ls (unwrapExpr n).pos = lineOfPos ls n.pos) →
       (∀ n, Reach roots n → n.kind = NodeKind.expressionStatement →
         ∃ c, n.childList = [c]) →
       (∀ n, Reach roots n → lineOfPos ls n.pos = L →
         fixupUnions (typeOf (unwrapExpr n)) = exp) →
       mapGet m L = some exp →
       (getExpectTypeFailures ls roots typeOf m).unmet
         = (getExpectTypeFailures ls roots typeOf (mapDelete m L)).unmet) ∧
    (∀ (ls : List Nat) (roots : List Node) (typeOf : Node → String)
       (m : List (Nat × String)) (L : Nat) (exp act : String),
       (∀ n, Reach roots n → lineOfPos ls (unwrapExpr n).pos = lineOfPos ls n.pos) →
       (∀ n, Reach roots n → n.kind = NodeKind.expressionStatement →
         ∃ c, n.childList = [c]) →
       (∀ n, Reach roots n → lineOfPos ls n.pos = L →
         fixupUnions (typeOf (unwrapExpr n)) = act) →
       act ≠ exp →
       mapGet m L = some exp →
       (∃ n, Reach roots n ∧ lineOfPos ls n.pos = L) →
       ∃ e ∈ (getExpectTypeFailures ls roots typeOf m).unmet,
         e.expected = exp ∧ e.actual = act) := by
  refine ⟨?_, ?_, ?_⟩
  · intro ls roots typeOf m
    exact iterGo_unmet_sound typeOf ls (wlSize roots) roots ⟨m, []⟩ (by simp)
  · intro ls roots typeOf m L exp hline hwf heq hm
    exact iterGo_erase typeOf ls L exp (Reach roots)
      (fun n hn c hc => Reach.child hn hc) hline hwf heq
      (wlSize roots) (wlSize roots) roots roots m (mapDelete m L) []
      (Nat.le_refl _) (Nat.le_refl _)
      (fun k hk => by rw [mapGet_delete, if_neg hk])
      (by rw [mapGet_delete, if_pos rfl])
      (Or.inl ⟨rfl, fun n hn => Reach.root hn, Or.inl hm⟩)
  · intro ls roots typeOf m L exp act hline hwf hact hne hm hwit
    exact iterGo_unmet_exists typeOf ls L exp act (Reach roots)
      (fun n hn c hc => Reach.child hn hc) hline hwf hact hne
      (wlSize roots) roots m [] (Nat.le_refl _)
      (fun n hn => Reach.root hn) hm hwit

/-- Witness for C1: the amended theorem applied at a one-node tree. -/
theorem c1_node_matcher_witness :
    (mapGet [(0, "number")] 0 = some "number" ∧
      (getExpectTypeFailures [0] [Node.mk .other 0 1 .nil] (fun _ => "number")
        [(0, "number")]).unmet
        = (getExpectTypeFailures [0] [Node.mk .other 0 1 .nil] (fun _ => "number")
            (mapDelete [(0, "number")] 0)).unmet) ∧
    ("string" ≠ "number" ∧
      ∃ e ∈ (getExpectTypeFailures [0] [Node.mk .other 0 1 .nil] (fun _ => "string")
        [(0, "number")]).unmet, e.expected = "number" ∧ e.actual = "string") := by
  have hroot : ∀ n, Reach [Node.mk .other 0 1 .nil] n → n = Node.mk .other 0 1 .nil := by
    intro n h
    induction h with
    | root h => simpa using h
    | child hm hc ih =>
      rw [ih] at hc
      simp [Node.childList, NodeList.toList] at hc
  have hline : ∀ (n : Node), Reach [Node.mk .other 0 1 .nil] n →
      lineOfPos [0] (unwrapExpr n).pos = lineOfPos [0] n.pos := by
    intro n _
    rw [lineOfPos_single, lineOfPos_single]
  have hwf : ∀ n, Reach [Node.mk .other 0 1 .nil] n →
      n.kind = NodeKind.expressionStatement → ∃ c, n.childList = [c] := by
    intro n hn hk
    rw [hroot n hn] at hk
    simp [Node.kind] at hk
  have hnum : fixupUnions "number" = "number" := by decide
  have hstr : fixupUnions "string" = "string" := by decide
  refine ⟨⟨by decide, ?_⟩, by decide, ?_⟩
  · exact c1_node_matcher_amended.2.1 [0] [Node.mk .other 0 1 .nil] (fun _ => "number")
      [(0, "number")] 0 "number" hline hwf (fun n _ _ => hnum) (by decide)
  · exact c1_node_matcher_amended.2.2 [0] [Node.mk .other 0 1 .nil] (fun _ => "string")
      [(0, "number")] 0 "number" "string" hline hwf (fun n _ _ => hstr)
      (by decide) (by decide)
      ⟨Node.mk .other 0 1 .nil, Reach.root (List.mem_singleton_self _),
        lineOfPos_single 0⟩

/-! ## The per-file verification pass (`walk`, expectRule.ts lines 115-196)

Diagnostics come from `ts.getPreEmitDiagnostics` (an external collaborator):
each carries its start offset, length, flattened message text, whether its
file is the file under test, and otherwise its file name (if any). -/

structure Diagnostic where
  start : Nat
  length : Nat
  messageText : String
  sameFile : Bool
  fileName : Option String
  deriving DecidableEq

structure SourceFileModel where
  text : String
  isDeclarationFile : Bool
  lineStarts : List Nat
  tokens : List Token
  statements : List Node

structure ProgramModel where
  sourceFile : SourceFileModel
  diagnostics : List Diagnostic
  typeOf : Node → String

structure Failure where
  start : Nat
  endPos : Nat
  msg : String
  deriving DecidableEq

def FAILURE_STRING_DUPLICATE_ASSERTION : String := "This line has 2 $ExpectType assertions."

def FAILURE_STRING_ASSERTION_MISSING_NODE : String := "Can not match a node to this assertion."

def FAILURE_STRING_EXPECTED_ERROR : String := "Expected an error on this line, but found none."

/-- `Rule.FAILURE_STRING(expectedType, actualType)`. -/
def FAILURE_STRING (expectedType actualType : String) : String :=
  "Expected type to be:\n  " ++ expectedType ++ "\ngot:\n  " ++ actualType

/-- `getIntro` (expectRule.ts lines 176-186). -/
def getIntro (versionName : String) (nextHigherVersion : Option String) : String :=
  match nextHigherVersion with
  | none => "TypeScript@" ++ versionName ++ " compile error: "
  | some nh =>
    "Compile error in typescript@" ++ versionName ++ " but not in typescript@" ++ nh
      ++ ".\n"
      ++ (if nh = "next" then "TypeScript@next features not yet supported."
          else "Fix with a comment '// TypeScript Version: " ++ nh
            ++ "' just under the header.")

/-- `addDiagnosticFailure` (expectRule.ts lines 165-174). -/
def addDiagnosticFailure (versionName : String) (nh : Option String)
    (d : Diagnostic) : Failure :=
  if d.sameFile then
    ⟨d.start, d.start + d.length, getIntro versionName nh ++ "\n" ++ d.messageText⟩
  else
    ⟨0, 0, getIntro versionName nh ++ "\n"
      ++ (match d.fileName with | some f => f ++ ": " | none => "") ++ d.messageText⟩

/-- `addFailureAtLine` (expectRule.ts lines 188-195). -/
def failureAtLine (sf : SourceFileModel) (line : Nat) (msg : String) : Failure :=
  let start := sf.lineStarts.getD line 0
  let e := start + ((splitSep1 '\n' sf.text.data).getD line []).length
  let e' := if sf.text.data.get? (e - 1) = some '\r' then e - 1 else e
  ⟨start, e', msg⟩

/-- The test `/\$Expect(Type|Error)/.test(sourceFile.text)`. -/
def containsDirective (text : String) : Bool :=
  hasInfix "$ExpectType".data text.data || hasInfix "$ExpectError".data text.data

/-- `walk` (expectRule.ts lines 115-196), producing the rule failures in the
order the source adds them. -/
def walkModel (prog : ProgramModel) (versionName : String)
    (nextHigherVersion : Option String) : List Failure :=
  let sf := prog.sourceFile
  if sf.isDeclarationFile || !(containsDirective sf.text) then
    prog.diagnostics.map (addDiagnosticFailure versionName nextHigherVersion)
  else
    let a := parseAssertions sf.lineStarts sf.tokens
    let dupFs := a.duplicates.map
      (fun line => failureAtLine sf line FAILURE_STRING_DUPLICATE_ASSERTION)
    let seen := prog.diagnostics.map (fun d => lineOfPos sf.lineStarts d.start)
    let diagFs := (prog.diagnostics.filter
        (fun d => decide (lineOfPos sf.lineStarts d.start ∉ a.errorLines))).map
      (addDiagnosticFailure versionName nextHigherVersion)
    let missingFs := (a.errorLines.filter (fun l => decide (l ∉ seen))).map
      (fun l => failureAtLine sf l FAILURE_STRING_EXPECTED_ERROR)
    let r := getExpectTypeFailures sf.lineStarts sf.statements prog.typeOf
      a.typeAssertions
    let unmetFs := r.unmet.map
      (fun e => ⟨e.node.pos, e.node.endPos, FAILURE_STRING e.expected e.actual⟩)
    let unusedFs := (r.typeAssertions.map (·.1)).map
      (fun l => failureAtLine sf l FAILURE_STRING_ASSERTION_MISSING_NODE)
    dupFs ++ diagFs ++ missingFs ++ unmetFs ++ unusedFs

/-! ## Claim C10: declaration files and files without directives -/

/-- C10 (confirmed).  For a declaration file, or a file whose text contains
no `$ExpectType`/`$ExpectError` substring, the pass reports exactly the
pre-emit diagnostics as failures (no scanning, matching or reconciliation
output), and zero diagnostics yield zero failures. -/
theorem c10_plain_file (prog : ProgramModel) (versionName : String)
    (nh : Option String)
    (h : prog.sourceFile.isDeclarationFile = true
      ∨ containsDirective prog.sourceFile.text = false) :
    walkModel prog versionName nh
        = prog.diagnostics.map (addDiagnosticFailure versionName nh)
    ∧ (prog.diagnostics = [] → walkModel prog versionName nh = []) := by
  have hcond : (prog.sourceFile.isDeclarationFile
      || !(containsDirective prog.sourceFile.text)) = true := by
    rcases h with h | h <;> simp [h]
  constructor
  · rw [walkModel, if_pos hcond]
  · intro hd
    rw [walkModel, if_pos hcond, hd]
    rfl

/-- Witness for C10: a declaration file with one diagnostic, and the same
file with none. -/
theorem c10_plain_file_witness :
    ((⟨⟨"x", true, [0], [], []⟩,
        [⟨0, 1, "boom", true, none⟩], fun _ => ""⟩ : ProgramModel).sourceFile.isDeclarationFile
        = true ∨ containsDirective "x" = false) ∧
    walkModel ⟨⟨"x", true, [0], [], []⟩, [⟨0, 1, "boom", true, none⟩], fun _ => ""⟩
        "next" none
      = [⟨0, 1, "TypeScript@next compile error: \nboom"⟩] ∧
    walkModel ⟨⟨"x", true, [0], [], []⟩, [], fun _ => ""⟩ "next" none = [] := by
  refine ⟨Or.inl rfl, ?_, ?_⟩
  · rw [(c10_plain_file ⟨⟨"x", true, [0], [], []⟩,
      [⟨0, 1, "boom", true, none⟩], fun _ => ""⟩ "next" none (Or.inl rfl)).1]
    decide
  · exact (c10_plain_file ⟨⟨"x", true, [0], [], []⟩, [], fun _ => ""⟩
      "next" none (Or.inl rfl)).2 rfl

/-! ## Distinguishing the failure-message classes

The five kinds of failure messages the pass emits are pairwise
distinguishable by their leading characters; compiler-diagnostic messages
always begin with one of the two `getIntro` shapes. -/

theorem failureAtLine_msg (sf : SourceFileModel) (l : Nat) (msg : String) :
    (failureAtLine sf l msg).msg = msg := rfl

theorem failureAtLine_start (sf : SourceFileModel) (l : Nat) (msg : String) :
    (failureAtLine sf l msg).start = sf.lineStarts.getD l 0 := rfl

theorem msg_ne_of_get {i : Nat} {s t : String} {c c' : Char}
    (hs : s.data.get? i = some c) (ht : t.data.get? i = some c') (hcc : c ≠ c') :
    s ≠ t := by
  intro h
  rw [h, ht] at hs
  exact hcc (Option.some.inj hs.symm)

theorem getIntro_get1 (v : String) (nh : Option String) (s : String) :
    ((getIntro v nh ++ s).data.get? 1 = some 'y'
      ∨ (getIntro v nh ++ s).data.get? 1 = some 'o') := by
  cases nh with
  | none =>
    left
    simp only [getIntro, String.data_append, List.append_assoc]
    rw [List.get?_append (by decide)]
    decide
  | some nhv =>
    right
    simp only [getIntro, String.data_append, List.append_assoc]
    rw [List.get?_append (by decide)]
    decide

theorem addDiagnosticFailure_get1 (v : String) (nh : Option String) (d : Diagnostic) :
    ((addDiagnosticFailure v nh d).msg.data.get? 1 = some 'y'
      ∨ (addDiagnosticFailure v nh d).msg.data.get? 1 = some 'o') := by
  unfold addDiagnosticFailure
  split_ifs with h
  · rw [String.append_assoc]
    exact getIntro_get1 v nh _
  · rw [String.append_assoc, String.append_assoc]
    exact getIntro_get1 v nh _

theorem FAILURE_STRING_get1 (exp act : String) :
    (FAILURE_STRING exp act).data.get? 1 = some 'x' := by
  simp only [FAILURE_STRING, String.data_append, List.append_assoc]
  rw [List.get?_append (by decide)]
  decide

theorem FAILURE_STRING_get9 (exp act : String) :
    (FAILURE_STRING exp act).data.get? 9 = some 't' := by
  simp only [FAILURE_STRING, String.data_append, List.append_assoc]
  rw [List.get?_append (by decide)]
  decide

theorem dup_msg_get1 : FAILURE_STRING_DUPLICATE_ASSERTION.data.get? 1 = some 'h' := by decide

theorem expected_msg_get1 : FAILURE_STRING_EXPECTED_ERROR.data.get? 1 = some 'x' := by decide

theorem expected_msg_get9 : FAILURE_STRING_EXPECTED_ERROR.data.get? 9 = some 'a' := by decide

theorem missing_msg_get1 : FAILURE_STRING_ASSERTION_MISSING_NODE.data.get? 1 = some 'a' := by
  decide

theorem addDiagnosticFailure_msg_ne (v : String) (nh : Option String) (d : Diagnostic) :
    (addDiagnosticFailure v nh d).msg ≠ FAILURE_STRING_DUPLICATE_ASSERTION
  ∧ (addDiagnosticFailure v nh d).msg ≠ FAILURE_STRING_EXPECTED_ERROR
  ∧ ∀ exp act : String, (addDiagnosticFailure v nh d).msg ≠ FAILURE_STRING exp act := by
  rcases addDiagnosticFailure_get1 v nh d with h | h
  · exact ⟨msg_ne_of_get h dup_msg_get1 (by decide),
      msg_ne_of_get h expected_msg_get1 (by decide),
      fun exp act => msg_ne_of_get h (FAILURE_STRING_get1 exp act) (by decide)⟩
  · exact ⟨msg_ne_of_get h dup_msg_get1 (by decide),
      msg_ne_of_get h expected_msg_get1 (by decide),
      fun exp act => msg_ne_of_get h (FAILURE_STRING_get1 exp act) (by decide)⟩

theorem FAILURE_STRING_ne (exp act : String) :
    FAILURE_STRING exp act ≠ FAILURE_STRING_DUPLICATE_ASSERTION
  ∧ FAILURE_STRING exp act ≠ FAILURE_STRING_EXPECTED_ERROR
  ∧ FAILURE_STRING exp act ≠ FAILURE_STRING_ASSERTION_MISSING_NODE :=
  ⟨msg_ne_of_get (FAILURE_STRING_get1 exp act) dup_msg_get1 (by decide),
   msg_ne_of_get (FAILURE_STRING_get9 exp act) expected_msg_get9 (by decide),
   msg_ne_of_get (FAILURE_STRING_get1 exp act) missing_msg_get1 (by decide)⟩

/-! ## Positions of line starts are injective on in-range lines -/

theorem ls_getD_inj (ls : List Nat) (hsort : ls.Pairwise (· < ·)) :
    ∀ i j : Nat, i < ls.length → j < ls.length → ls.getD i 0 = ls.getD j 0 → i = j := by
  have hmono : ∀ (i j : Fin ls.length), i < j → ls.get i < ls.get j :=
    List.pairwise_iff_get.mp hsort
  intro i j hi hj heq
  rw [List.getD_eq_get?, List.get?_eq_get hi, List.getD_eq_get?, List.get?_eq_get hj] at heq
  have heq' : ls.get ⟨i, hi⟩ = ls.get ⟨j, hj⟩ := heq
  rcases Nat.lt_trichotomy i j with h | h | h
  · exact absurd heq' (Nat.ne_of_lt (hmono ⟨i, hi⟩ ⟨j, hj⟩ h))
  · exact h
  · exact absurd heq'.symm (Nat.ne_of_lt (hmono ⟨j, hj⟩ ⟨i, hi⟩ h))

theorem length_filter_eq_count (l : List Nat) (L : Nat) :
    (l.filter (fun x => decide (x = L))).length = l.count L := by
  rw [List.count_eq_countP, List.countP_eq_length_filter]
  exact congrArg List.length (List.filter_congr (fun x _ => by by_cases h : x = L <;> simp [h]))

/-- A line with at least one `$ExpectError` directive occurs in the
directive list. -/
theorem cErr_pos_mem {ds : List (Nat × Option String)} {L : Nat}
    (h : 0 < cErr ds L) : ∃ e ∈ ds, e.1 = L := by
  unfold cErr at h
  obtain ⟨e, he⟩ := List.exists_mem_of_ne_nil _ (List.length_pos.mp h)
  obtain ⟨hmem, hp⟩ := List.mem_filter.mp he
  exact ⟨e, hmem, (of_decide_eq_true hp).1⟩

/-- A line with at least one `$ExpectType` directive occurs in the
directive list. -/
theorem cType_pos_mem {ds : List (Nat × Option String)} {L : Nat}
    (h : 0 < cType ds L) : ∃ e ∈ ds, e.1 = L := by
  unfold cType at h
  obtain ⟨e, he⟩ := List.exists_mem_of_ne_nil _ (List.length_pos.mp h)
  obtain ⟨hmem, hp⟩ := List.mem_filter.mp he
  exact ⟨e, hmem, (of_decide_eq_true hp).1⟩

/-! ## Attribution of unmet expectations to initial assertion keys -/

theorem unwrap_mem_or_eq (n : Node) :
    unwrapExpr n = n ∨ unwrapExpr n ∈ n.childList := by
  rcases n with ⟨k, p, e, ch⟩
  cases k
  case other => exact Or.inl rfl
  case expressionStatement =>
    cases ch with
    | nil => exact Or.inl rfl
    | cons c t =>
      refine Or.inr ?_
      show c ∈ c :: t.toList
      exact List.mem_cons_self c _

theorem reach_unwrap {roots : List Node} {n : Node} (h : Reach roots n) :
    Reach roots (unwrapExpr n) := by
  rcases unwrap_mem_or_eq n with he | hm
  · rw [he]; exact h
  · exact Reach.child h hm

theorem mapGet_some_mapHas {m : List (Nat × String)} {k : Nat} {v : String}
    (h : mapGet m k = some v) : mapHas m k = true := by
  induction m with
  | nil => simp [mapGet] at h
  | cons e m ih =>
    by_cases he : e.1 = k
    · simp [mapHas, he]
    · rw [show mapGet (e :: m) k = mapGet m k by simp [mapGet, List.find?_cons, he]] at h
      have := ih h
      simp only [mapHas] at this ⊢
      simp [this]

/-- Every unmet expectation recorded by the traversal sits (after the
expression-statement unwrap, which by hypothesis preserves the line) on a
line that is a key of the map at the start of the traversal: the map only
ever shrinks, and an entry is pushed only when its node's line is found in
the current map. -/
theorem iterGo_attrib (typeOf : Node → String) (ls : List Nat) (P : Node → Prop)
    (Hclose : ∀ n, P n → ∀ c ∈ n.childList, P c)
    (Hunwrap : ∀ n, P n → P (unwrapExpr n))
    (Hline : ∀ n, P n → lineOfPos ls (unwrapExpr n).pos = lineOfPos ls n.pos)
    (m₀ : List (Nat × String)) :
    ∀ (fuel : Nat) (wl : List Node) (st : MatchState),
      (∀ n ∈ wl, P n) →
      (∀ k, mapHas st.typeAssertions k = true → mapHas m₀ k = true) →
      (∀ e ∈ st.unmet, mapHas m₀ (lineOfPos ls e.node.pos) = true) →
      ∀ e ∈ (iterGo typeOf ls fuel wl st).unmet,
        mapHas m₀ (lineOfPos ls e.node.pos) = true
  | 0, _, _, _, _, hu => hu
  | _ + 1, [], _, _, _, hu => hu
  | fuel + 1, n :: rest, st, hwl, hm, hu => by
    rw [iterGo]
    have hPn : P n := hwl n (List.mem_cons_self n rest)
    cases hg : mapGet st.typeAssertions (lineOfPos ls n.pos) with
    | none =>
      refine iterGo_attrib typeOf ls P Hclose Hunwrap Hline m₀ fuel _ st ?_ hm hu
      intro x hx
      rcases List.mem_append.mp hx with hx | hx
      · exact Hclose n hPn x hx
      · exact hwl x (List.mem_cons.mpr (Or.inr hx))
    | some expected =>
      refine iterGo_attrib typeOf ls P Hclose Hunwrap Hline m₀ fuel _ _ ?_ ?_ ?_
      · intro x hx
        rcases List.mem_append.mp hx with hx | hx
        · exact Hclose (unwrapExpr n) (Hunwrap n hPn) x hx
        · exact hwl x (List.mem_cons.mpr (Or.inr hx))
      · intro k hk
        dsimp only at hk
        rw [mapHas_delete] at hk
        by_cases hkl : k = lineOfPos ls n.pos
        · rw [if_pos hkl] at hk
          exact absurd hk (by simp)
        · rw [if_neg hkl] at hk
          exact hm k hk
      · dsimp only
        split_ifs with hne
        · intro e he
          rcases List.mem_append.mp he with he | he
          · exact hu e he
          · have heq : e = ⟨unwrapExpr n, expected, fixupUnions (typeOf (unwrapExpr n))⟩ := by
              simpa using he
            subst heq
            show mapHas m₀ (lineOfPos ls (unwrapExpr n).pos) = true
            rw [Hline n hPn]
            exact hm _ (mapGet_some_mapHas hg)
        · exact hu

/-- Attribution at the top level: under line preservation of the unwrap on
reachable nodes, every unmet expectation's node lies on a line that was a
key of the initial type-assertion map. -/
theorem getExpectTypeFailures_unmet_keys (ls : List Nat) (roots : List Node)
    (typeOf : Node → String) (m₀ : List (Nat × String))
    (Hline : ∀ n, Reach roots n →
      lineOfPos ls (unwrapExpr n).pos = lineOfPos ls n.pos) :
    ∀ e ∈ (getExpectTypeFailures ls roots typeOf m₀).unmet,
      mapHas m₀ (lineOfPos ls e.node.pos) = true := by
  unfold getExpectTypeFailures
  refine iterGo_attrib typeOf ls (Reach roots)
    (fun n h c hc => Reach.child h hc) (fun n h => reach_unwrap h) Hline m₀
    (wlSize roots) roots ⟨m₀, []⟩ (fun n hn => Reach.root hn) (fun k hk => hk) ?_
  intro e he
  exact absurd he (List.not_mem_nil e)

/-- The main branch of `walk` written out: the five failure groups in
emission order. -/
theorem walkModel_branch (prog : ProgramModel) (v : String) (nh : Option String)
    (h1 : prog.sourceFile.isDeclarationFile = false)
    (h2 : containsDirective prog.sourceFile.text = true) :
    walkModel prog v nh =
      ((parseAssertions prog.sourceFile.lineStarts prog.sourceFile.tokens).duplicates.map
        (fun line => failureAtLine prog.sourceFile line FAILURE_STRING_DUPLICATE_ASSERTION))
      ++ ((prog.diagnostics.filter (fun d =>
            decide (lineOfPos prog.sourceFile.lineStarts d.start
              ∉ (parseAssertions prog.sourceFile.lineStarts
                  prog.sourceFile.tokens).errorLines))).map
          (addDiagnosticFailure v nh))
      ++ (((parseAssertions prog.sourceFile.lineStarts
              prog.sourceFile.tokens).errorLines.filter (fun l =>
            decide (l ∉ prog.diagnostics.map (fun d =>
              lineOfPos prog.sourceFile.lineStarts d.start)))).map
          (fun l => failureAtLine prog.sourceFile l FAILURE_STRING_EXPECTED_ERROR))
      ++ ((getExpectTypeFailures prog.sourceFile.lineStarts prog.sourceFile.statements
            prog.typeOf (parseAssertions prog.sourceFile.lineStarts
              prog.sourceFile.tokens).typeAssertions).unmet.map
          (fun e => ⟨e.node.pos, e.node.endPos, FAILURE_STRING e.expected e.actual⟩))
      ++ (((getExpectTypeFailures prog.sourceFile.lineStarts prog.sourceFile.statements
            prog.typeOf (parseAssertions prog.sourceFile.lineStarts
              prog.sourceFile.tokens).typeAssertions).typeAssertions.map (·.1)).map
          (fun l => failureAtLine prog.sourceFile l
            FAILURE_STRING_ASSERTION_MISSING_NODE)) := by
  have hcond : ¬ ((prog.sourceFile.isDeclarationFile
      || !(containsDirective prog.sourceFile.text)) = true) := by
    simp [h1, h2]
  simp only [walkModel]
  rw [if_neg hcond]

/-! ## Claim C5: lines with two assertions of one kind -/

/-- Number of `DuplicateAssertion` failures the run emits whose start is the
start of line `L`. -/
def dupFailureCountAt (prog : ProgramModel) (v : String) (nh : Option String)
    (L : Nat) : Nat :=
  ((walkModel prog v nh).filter (fun f =>
    decide (f.msg = FAILURE_STRING_DUPLICATE_ASSERTION
      ∧ f.start = prog.sourceFile.lineStarts.getD L 0))).length

/-- "No `TypeMismatch` failure is produced for line `L`": no emitted failure
carries a `FAILURE_STRING`-shaped message and starts on line `L`. -/
def noTypeMismatchAt (prog : ProgramModel) (v : String) (nh : Option String)
    (L : Nat) : Prop :=
  ∀ exp act : String, ∀ f ∈ walkModel prog v nh,
    f.msg = FAILURE_STRING exp act →
      lineOfPos prog.sourceFile.lineStarts f.start ≠ L

/-- "A `MissingExpectedError` failure is produced for line `L`". -/
def missingErrorAt (prog : ProgramModel) (v : String) (nh : Option String)
    (L : Nat) : Prop :=
  ∃ f ∈ walkModel prog v nh,
    f.msg = FAILURE_STRING_EXPECTED_ERROR
      ∧ f.start = prog.sourceFile.lineStarts.getD L 0

/-- C5 (counterexample).  A file whose line 1 carries two `$ExpectError`
comments and no compile error on that line: the run emits the one
`DuplicateAssertion` failure, but *also* a `MissingExpectedError` failure
for the same line (the duplicate still performs `errorLines.add(line)`, and
no diagnostic covers the line), contradicting the claim's "no
MissingExpectedError failure for that line". -/
theorem c5_duplicate_handling_counterexample :
    walkModel ⟨⟨"// $ExpectError\nx; // $ExpectError", false, [0, 16],
        [⟨.singleLineComment, 0, "// $ExpectError"⟩, ⟨.newline, 15, "\n"⟩,
         ⟨.other, 16, "x"⟩, ⟨.other, 17, ";"⟩, ⟨.whitespace, 18, " "⟩,
         ⟨.singleLineComment, 19, "// $ExpectError"⟩], []⟩, [], fun _ => ""⟩
      "next" none
      = [⟨16, 34, FAILURE_STRING_DUPLICATE_ASSERTION⟩,
         ⟨16, 34, FAILURE_STRING_EXPECTED_ERROR⟩] := by decide

/-- C5 (amended).  Let `L` carry exactly two `$ExpectError` directives (and
no `$ExpectType`), or exactly two `$ExpectType` directives (and no
`$ExpectError`).  In both cases the run emits exactly one
`DuplicateAssertion` failure at line `L` and no `TypeMismatch` failure on
line `L` (the doubled type assertion cancels out of the pending map, and a
doubled error assertion leaves no type assertion to match).  But a
`MissingExpectedError` failure for `L` *is* still governed by the error
reconciliation in the `$ExpectError` case: it is emitted iff no diagnostic
starts on line `L` (the duplicate does not suppress the error expectation);
only in the `$ExpectType` case is it never emitted. -/
theorem c5_duplicate_handling_amended (prog : ProgramModel) (v : String)
    (nh : Option String) (L : Nat)
    (hdecl : prog.sourceFile.isDeclarationFile = false)
    (hdir : containsDirective prog.sourceFile.text = true)
    (hsort : prog.sourceFile.lineStarts.Pairwise (· < ·))
    (hL : L < prog.sourceFile.lineStarts.length)
    (hbound : ∀ e ∈ scanDirectives prog.sourceFile.lineStarts (-1, 0)
        prog.sourceFile.tokens, e.1 < prog.sourceFile.lineStarts.length)
    (hline : ∀ n, Reach prog.sourceFile.statements n →
      lineOfPos prog.sourceFile.lineStarts (unwrapExpr n).pos
        = lineOfPos prog.sourceFile.lineStarts n.pos) :
    (cErr (scanDirectives prog.sourceFile.lineStarts (-1, 0)
          prog.sourceFile.tokens) L = 2
        ∧ cType (scanDirectives prog.sourceFile.lineStarts (-1, 0)
          prog.sourceFile.tokens) L = 0 →
        dupFailureCountAt prog v nh L = 1
      ∧ noTypeMismatchAt prog v nh L
      ∧ (missingErrorAt prog v nh L ↔ ∀ d ∈ prog.diagnostics,
          lineOfPos prog.sourceFile.lineStarts d.start ≠ L))
  ∧ (cType (scanDirectives prog.sourceFile.lineStarts (-1, 0)
          prog.sourceFile.tokens) L = 2
        ∧ cErr (scanDirectives prog.sourceFile.lineStarts (-1, 0)
          prog.sourceFile.tokens) L = 0 →
        dupFailureCountAt prog v nh L = 1
      ∧ noTypeMismatchAt prog v nh L
      ∧ ¬ missingErrorAt prog v nh L) := by
  have hbranch := walkModel_branch prog v nh hdecl hdir
  set ds := scanDirectives prog.sourceFile.lineStarts (-1, 0) prog.sourceFile.tokens
    with hds
  set a := parseAssertions prog.sourceFile.lineStarts prog.sourceFile.tokens with ha
  have htable : a = buildTable ds := parseAssertions_eq_buildTable _ _
  have hspec : ∀ l, (l ∈ a.errorLines ↔ 0 < cErr ds l)
      ∧ (mapHas a.typeAssertions l = true ↔ cType ds l % 2 = 1)
      ∧ (a.duplicates.count l = (cErr ds l - 1) + cType ds l / 2) := by
    intro l
    rw [htable]
    exact buildTable_spec ds l
  have hmemlen : ∀ l, (0 < cErr ds l ∨ 0 < cType ds l) →
      l < prog.sourceFile.lineStarts.length := by
    intro l hl
    rcases hl with hl | hl
    · obtain ⟨e, he, h1⟩ := cErr_pos_mem hl
      rw [← h1]
      exact hbound e he
    · obtain ⟨e, he, h1⟩ := cType_pos_mem hl
      rw [← h1]
      exact hbound e he
  have hdupmem : ∀ l ∈ a.duplicates, l < prog.sourceFile.lineStarts.length := by
    intro l hl
    have hc : 0 < a.duplicates.count l := List.count_pos_iff.mpr hl
    rw [(hspec l).2.2] at hc
    exact hmemlen l (by omega)
  have herrmem : ∀ l ∈ a.errorLines, l < prog.sourceFile.lineStarts.length := by
    intro l hl
    exact hmemlen l (Or.inl ((hspec l).1.mp hl))
  have hinj := ls_getD_inj prog.sourceFile.lineStarts hsort
  have hdup1 : a.duplicates.count L = 1 → dupFailureCountAt prog v nh L = 1 := by
    intro hcount
    unfold dupFailureCountAt
    rw [hbranch]
    rw [List.filter_append, List.filter_append, List.filter_append, List.filter_append]
    have hg1 : ((a.duplicates.map (fun line => failureAtLine prog.sourceFile line
          FAILURE_STRING_DUPLICATE_ASSERTION)).filter (fun f =>
        decide (f.msg = FAILURE_STRING_DUPLICATE_ASSERTION
          ∧ f.start = prog.sourceFile.lineStarts.getD L 0))).length = 1 := by
      rw [List.filter_map, List.length_map]
      have hcong : a.duplicates.filter ((fun f =>
            decide (f.msg = FAILURE_STRING_DUPLICATE_ASSERTION
              ∧ f.start = prog.sourceFile.lineStarts.getD L 0))
            ∘ (fun line => failureAtLine prog.sourceFile line
                FAILURE_STRING_DUPLICATE_ASSERTION))
          = a.duplicates.filter (fun l => decide (l = L)) := by
        refine List.filter_congr ?_
        intro l hl
        show decide ((failureAtLine prog.sourceFile l
            FAILURE_STRING_DUPLICATE_ASSERTION).msg = FAILURE_STRING_DUPLICATE_ASSERTION
          ∧ (failureAtLine prog.sourceFile l FAILURE_STRING_DUPLICATE_ASSERTION).start
            = prog.sourceFile.lineStarts.getD L 0) = decide (l = L)
        rw [failureAtLine_msg, failureAtLine_start]
        by_cases hlL : l = L
        · subst hlL
          rw [decide_eq_true (⟨rfl, rfl⟩ :
            FAILURE_STRING_DUPLICATE_ASSERTION = FAILURE_STRING_DUPLICATE_ASSERTION
              ∧ prog.sourceFile.lineStarts.getD l 0 = prog.sourceFile.lineStarts.getD l 0),
            decide_eq_true rfl]
        · have hne : prog.sourceFile.lineStarts.getD l 0
              ≠ prog.sourceFile.lineStarts.getD L 0 :=
            fun hc => hlL (hinj l L (hdupmem l hl) hL hc)
          rw [decide_eq_false (fun hc => hne hc.2), decide_eq_false hlL]
      rw [hcong, length_filter_eq_count, hcount]
    have hg2 : ((prog.diagnostics.filter (fun d =>
          decide (lineOfPos prog.sourceFile.lineStarts d.start ∉ a.errorLines))).map
          (addDiagnosticFailure v nh)).filter (fun f =>
        decide (f.msg = FAILURE_STRING_DUPLICATE_ASSERTION
          ∧ f.start = prog.sourceFile.lineStarts.getD L 0)) = [] := by
      refine List.filter_eq_nil_iff.mpr ?_
      intro f hf hp
      rcases List.mem_map.mp hf with ⟨d, hd, rfl⟩
      obtain ⟨hmsg, -⟩ := of_decide_eq_true hp
      exact (addDiagnosticFailure_msg_ne v nh d).1 hmsg
    have hg3 : ((a.errorLines.filter (fun l =>
          decide (l ∉ prog.diagnostics.map (fun d =>
            lineOfPos prog.sourceFile.lineStarts d.start)))).map (fun l =>
          failureAtLine prog.sourceFile l FAILURE_STRING_EXPECTED_ERROR)).filter (fun f =>
        decide (f.msg = FAILURE_STRING_DUPLICATE_ASSERTION
          ∧ f.start = prog.sourceFile.lineStarts.getD L 0)) = [] := by
      refine List.filter_eq_nil_iff.mpr ?_
      intro f hf hp
      rcases List.mem_map.mp hf with ⟨l, hl, rfl⟩
      obtain ⟨hmsg, -⟩ := of_decide_eq_true hp
      have hmsg2 : FAILURE_STRING_EXPECTED_ERROR
          = FAILURE_STRING_DUPLICATE_ASSERTION := hmsg
      exact absurd hmsg2 (by decide)
    have hg4 : ((getExpectTypeFailures prog.sourceFile.lineStarts
          prog.sourceFile.statements prog.typeOf a.typeAssertions).unmet.map
          (fun e => (⟨e.node.pos, e.node.endPos,
            FAILURE_STRING e.expected e.actual⟩ : Failure))).filter (fun f =>
        decide (f.msg = FAILURE_STRING_DUPLICATE_ASSERTION
          ∧ f.start = prog.sourceFile.lineStarts.getD L 0)) = [] := by
      refine List.filter_eq_nil_iff.mpr ?_
      intro f hf hp
      rcases List.mem_map.mp hf with ⟨e, he, rfl⟩
      obtain ⟨hmsg, -⟩ := of_decide_eq_true hp
      have hmsg2 : FAILURE_STRING e.expected e.actual
          = FAILURE_STRING_DUPLICATE_ASSERTION := hmsg
      exact (FAILURE_STRING_ne e.expected e.actual).1 hmsg2
    have hg5 : (((getExpectTypeFailures prog.sourceFile.lineStarts
          prog.sourceFile.statements prog.typeOf
          a.typeAssertions).typeAssertions.map (·.1)).map (fun l =>
          failureAtLine prog.sourceFile l
            FAILURE_STRING_ASSERTION_MISSING_NODE)).filter (fun f =>
        decide (f.msg = FAILURE_STRING_DUPLICATE_ASSERTION
          ∧ f.start = prog.sourceFile.lineStarts.getD L 0)) = [] := by
      refine List.filter_eq_nil_iff.mpr ?_
      intro f hf hp
      rcases List.mem_map.mp hf with ⟨l, hl, rfl⟩
      obtain ⟨hmsg, -⟩ := of_decide_eq_true hp
      have hmsg2 : FAILURE_STRING_ASSERTION_MISSING_NODE
          = FAILURE_STRING_DUPLICATE_ASSERTION := hmsg
      exact absurd hmsg2 (by decide)
    rw [hg2, hg3, hg4, hg5, List.append_nil, List.append_nil, List.append_nil,
      List.append_nil]
    exact hg1
  have hexpected : ∀ f ∈ walkModel prog v nh,
      f.msg = FAILURE_STRING_EXPECTED_ERROR →
      f.start = prog.sourceFile.lineStarts.getD L 0 →
      L ∈ a.errorLines ∧ ∀ d ∈ prog.diagnostics,
        lineOfPos prog.sourceFile.lineStarts d.start ≠ L := by
    intro f hf hmsg hstart
    rw [hbranch] at hf
    simp only [List.append_assoc] at hf
    rcases List.mem_append.mp hf with hf | hf
    · rcases List.mem_map.mp hf with ⟨l, hl, rfl⟩
      have hmsg2 : FAILURE_STRING_DUPLICATE_ASSERTION
          = FAILURE_STRING_EXPECTED_ERROR := hmsg
      exact absurd hmsg2 (by decide)
    rcases List.mem_append.mp hf with hf | hf
    · rcases List.mem_map.mp hf with ⟨d, hd, rfl⟩
      exact absurd hmsg (addDiagnosticFailure_msg_ne v nh d).2.1
    rcases List.mem_append.mp hf with hf | hf
    · rcases List.mem_map.mp hf with ⟨l, hl, rfl⟩
      have hstart2 : prog.sourceFile.lineStarts.getD l 0
          = prog.sourceFile.lineStarts.getD L 0 := hstart
      obtain ⟨hlmem, hlseen⟩ := List.mem_filter.mp hl
      have hlL : l = L := hinj l L (herrmem l hlmem) hL hstart2
      subst hlL
      refine ⟨hlmem, ?_⟩
      intro d hd hdL
      exact (of_decide_eq_true hlseen) (List.mem_map.mpr ⟨d, hd, hdL⟩)
    rcases List.mem_append.mp hf with hf | hf
    · rcases List.mem_map.mp hf with ⟨e, he, rfl⟩
      have hmsg2 : FAILURE_STRING e.expected e.actual
          = FAILURE_STRING_EXPECTED_ERROR := hmsg
      exact absurd hmsg2 (FAILURE_STRING_ne e.expected e.actual).2.1
    · rcases List.mem_map.mp hf with ⟨l, hl, rfl⟩
      have hmsg2 : FAILURE_STRING_ASSERTION_MISSING_NODE
          = FAILURE_STRING_EXPECTED_ERROR := hmsg
      exact absurd hmsg2 (by decide)
  have hnoTM : mapHas a.typeAssertions L = false → noTypeMismatchAt prog v nh L := by
    intro hkey
    intro exp act f hf hmsg hLeq
    rw [hbranch] at hf
    simp only [List.append_assoc] at hf
    rcases List.mem_append.mp hf with hf | hf
    · rcases List.mem_map.mp hf with ⟨l, hl, rfl⟩
      have hmsg2 : FAILURE_STRING_DUPLICATE_ASSERTION = FAILURE_STRING exp act := hmsg
      exact (FAILURE_STRING_ne exp act).1 hmsg2.symm
    rcases List.mem_append.mp hf with hf | hf
    · rcases List.mem_map.mp hf with ⟨d, hd, rfl⟩
      exact (addDiagnosticFailure_msg_ne v nh d).2.2 exp act hmsg
    rcases List.mem_append.mp hf with hf | hf
    · rcases List.mem_map.mp hf with ⟨l, hl, rfl⟩
      have hmsg2 : FAILURE_STRING_EXPECTED_ERROR = FAILURE_STRING exp act := hmsg
      exact (FAILURE_STRING_ne exp act).2.1 hmsg2.symm
    rcases List.mem_append.mp hf with hf | hf
    · rcases List.mem_map.mp hf with ⟨e, he, rfl⟩
      have hkey2 := getExpectTypeFailures_unmet_keys prog.sourceFile.lineStarts
        prog.sourceFile.statements prog.typeOf a.typeAssertions hline e he
      have hLeq2 : lineOfPos prog.sourceFile.lineStarts e.node.pos = L := hLeq
      rw [hLeq2] at hkey2
      rw [hkey] at hkey2
      exact absurd hkey2 (by decide)
    · rcases List.mem_map.mp hf with ⟨l, hl, rfl⟩
      have hmsg2 : FAILURE_STRING_ASSERTION_MISSING_NODE = FAILURE_STRING exp act := hmsg
      exact (FAILURE_STRING_ne exp act).2.2 hmsg2.symm
  refine ⟨?_, ?_⟩
  · rintro ⟨hcE, hcT⟩
    have hcount : a.duplicates.count L = 1 := by
      rw [(hspec L).2.2, hcE, hcT]
    have hkey : mapHas a.typeAssertions L = false := by
      cases hb : mapHas a.typeAssertions L
      · rfl
      · have h2 := (hspec L).2.1.mp hb
        rw [hcT] at h2
        exact absurd h2 (by decide)
    refine ⟨hdup1 hcount, hnoTM hkey, ?_⟩
    constructor
    · intro hmiss
      obtain ⟨f, hf, hmsg, hstart⟩ := hmiss
      exact (hexpected f hf hmsg hstart).2
    · intro hnod
      have hLerr : L ∈ a.errorLines := (hspec L).1.mpr (by rw [hcE]; decide)
      have hnotseen : L ∉ prog.diagnostics.map (fun d =>
          lineOfPos prog.sourceFile.lineStarts d.start) := by
        intro hmem
        rcases List.mem_map.mp hmem with ⟨d, hd, hdL⟩
        exact hnod d hd hdL
      refine ⟨failureAtLine prog.sourceFile L FAILURE_STRING_EXPECTED_ERROR, ?_, rfl, rfl⟩
      rw [hbranch]
      simp only [List.append_assoc]
      refine List.mem_append_right _ (List.mem_append_right _ (List.mem_append_left _ ?_))
      exact List.mem_map.mpr ⟨L,
        List.mem_filter.mpr ⟨hLerr, decide_eq_true hnotseen⟩, rfl⟩
  · rintro ⟨hcT, hcE⟩
    have hcount : a.duplicates.count L = 1 := by
      rw [(hspec L).2.2, hcE, hcT]
    have hkey : mapHas a.typeAssertions L = false := by
      cases hb : mapHas a.typeAssertions L
      · rfl
      · have h2 := (hspec L).2.1.mp hb
        rw [hcT] at h2
        exact absurd h2 (by decide)
    refine ⟨hdup1 hcount, hnoTM hkey, ?_⟩
    intro hmiss
    obtain ⟨f, hf, hmsg, hstart⟩ := hmiss
    have hLerr := (hexpected f hf hmsg hstart).1
    have h2 := (hspec L).1.mp hLerr
    rw [hcE] at h2
    exact absurd h2 (by decide)

/-- Witness for C5: the amended theorem applied to the two-`$ExpectError`
file of the counterexample (no diagnostics), yielding exactly one duplicate
failure, no type-mismatch failure, and — by the reconciliation direction of
the iff — a missing-expected-error failure. -/
theorem c5_duplicate_handling_witness :
    cErr (scanDirectives [0, 16] (-1, 0)
        [⟨.singleLineComment, 0, "// $ExpectError"⟩, ⟨.newline, 15, "\n"⟩,
         ⟨.other, 16, "x"⟩, ⟨.other, 17, ";"⟩, ⟨.whitespace, 18, " "⟩,
         ⟨.singleLineComment, 19, "// $ExpectError"⟩]) 1 = 2
  ∧ dupFailureCountAt ⟨⟨"// $ExpectError\nx; // $ExpectError", false, [0, 16],
        [⟨.singleLineComment, 0, "// $ExpectError"⟩, ⟨.newline, 15, "\n"⟩,
         ⟨.other, 16, "x"⟩, ⟨.other, 17, ";"⟩, ⟨.whitespace, 18, " "⟩,
         ⟨.singleLineComment, 19, "// $ExpectError"⟩], []⟩, [], fun _ => ""⟩
      "next" none 1 = 1
  ∧ noTypeMismatchAt ⟨⟨"// $ExpectError\nx; // $ExpectError", false, [0, 16],
        [⟨.singleLineComment, 0, "// $ExpectError"⟩, ⟨.newline, 15, "\n"⟩,
         ⟨.other, 16, "x"⟩, ⟨.other, 17, ";"⟩, ⟨.whitespace, 18, " "⟩,
         ⟨.singleLineComment, 19, "// $ExpectError"⟩], []⟩, [], fun _ => ""⟩
      "next" none 1
  ∧ missingErrorAt ⟨⟨"// $ExpectError\nx; // $ExpectError", false, [0, 16],
        [⟨.singleLineComment, 0, "// $ExpectError"⟩, ⟨.newline, 15, "\n"⟩,
         ⟨.other, 16, "x"⟩, ⟨.other, 17, ";"⟩, ⟨.whitespace, 18, " "⟩,
         ⟨.singleLineComment, 19, "// $ExpectError"⟩], []⟩, [], fun _ => ""⟩
      "next" none 1 := by
  have T := (c5_duplicate_handling_amended
    ⟨⟨"// $ExpectError\nx; // $ExpectError", false, [0, 16],
        [⟨.singleLineComment, 0, "// $ExpectError"⟩, ⟨.newline, 15, "\n"⟩,
         ⟨.other, 16, "x"⟩, ⟨.other, 17, ";"⟩, ⟨.whitespace, 18, " "⟩,
         ⟨.singleLineComment, 19, "// $ExpectError"⟩], []⟩, [], fun _ => ""⟩
    "next" none 1 rfl (by decide) (by decide) (by decide) (by decide)
    (fun n h => absurd h reach_nil)).1 ⟨by decide, by decide⟩
  exact ⟨by decide, T.1, T.2.1, T.2.2.mpr (by simp)⟩

/-! ## The multi-version coordinator (`applyWithProgram`, expectRule.ts
lines 33-75)

Each configured TypeScript install is an external collaborator: the model
carries, per install, the version name and the `ProgramModel` that
`getProgram`/`walk` would observe at that version.  The coordinator runs
"next" first, asserts there are older installs, checks the oldest, and then
scans from newest to oldest. -/

structure Install where
  versionName : String
  prog : ProgramModel

structure OptionsModel where
  nextProg : ProgramModel
  olderInstalls : List Install

inductive CoordResult where
  | failures (fs : List Failure)
  | assertFailed
  | internalError
  deriving DecidableEq

/-- The loop's `nextHigherVersion`:
`i === olderInstalls.length - 1 ? "next" : olderInstalls[i + 1].versionName`
(the `getD` default is never consulted for an in-range non-final `i`). -/
def nhOf (installs : List Install) (i : Nat) : String :=
  if i = installs.length - 1 then "next"
  else ((installs.get? (i + 1)).map Install.versionName).getD "next"

/-- The backward scan (`for (let i = length - 1; i >= 0; i--)`):
`scanDown installs (i + 1)` runs the loop body at index `i`; falling past
index 0 reaches the bare `throw new Error()`. -/
def scanDown (installs : List Install) : Nat → CoordResult
  | 0 => CoordResult.internalError
  | i + 1 =>
    match installs.get? i with
    | none => CoordResult.internalError
    | some inst =>
      if (walkModel inst.prog inst.versionName (some (nhOf installs i))).length ≠ 0
      then CoordResult.failures
        (walkModel inst.prog inst.versionName (some (nhOf installs i)))
      else scanDown installs i

/-- `applyWithProgram` in the multi-version configuration (options given):
run "next"; if it fails return its failures; assert older installs exist;
return `[]` if the oldest passes; otherwise scan newest-to-oldest. -/
def applyWithProgramMulti (opts : OptionsModel) : CoordResult :=
  if (walkModel opts.nextProg "next" none).length ≠ 0 then
    CoordResult.failures (walkModel opts.nextProg "next" none)
  else if opts.olderInstalls.length = 0 then CoordResult.assertFailed
  else
    match opts.olderInstalls.get? 0 with
    | none => CoordResult.internalError
    | some minInstall =>
      if (walkModel minInstall.prog minInstall.versionName none).length = 0 then
        CoordResult.failures []
      else scanDown opts.olderInstalls opts.olderInstalls.length

/-- The number of failures the pass emits does not depend on the
`nextHigherVersion` annotation (it only changes diagnostic message text). -/
theorem walkModel_length_nh (prog : ProgramModel) (v : String)
    (nh nh' : Option String) :
    (walkModel prog v nh).length = (walkModel prog v nh').length := by
  simp only [walkModel]
  split_ifs with h
  · simp [List.length_map]
  · simp [List.length_append, List.length_map]

/-- One step of the backward scan at an in-range index. -/
theorem scanDown_succ_some (installs : List Install) (i : Nat) (inst : Install)
    (h : installs.get? i = some inst) :
    scanDown installs (i + 1) =
      if (walkModel inst.prog inst.versionName (some (nhOf installs i))).length ≠ 0
      then CoordResult.failures
        (walkModel inst.prog inst.versionName (some (nhOf installs i)))
      else scanDown installs i := by
  rw [scanDown, h]

/-- If index `j` fails (with its loop annotation) and every newer index
passes, the backward scan started anywhere above `j` returns the failures
of `j`. -/
theorem scanDown_from (installs : List Install) (j : Nat) (inst : Install)
    (hj : installs.get? j = some inst)
    (hfail : walkModel inst.prog inst.versionName (some (nhOf installs j)) ≠ [])
    (hafter : ∀ k instK, j < k → installs.get? k = some instK →
      walkModel instK.prog instK.versionName (some (nhOf installs k)) = []) :
    ∀ i, j < i → i ≤ installs.length →
      scanDown installs i = CoordResult.failures
        (walkModel inst.prog inst.versionName (some (nhOf installs j))) := by
  intro i
  induction i with
  | zero => intro h; omega
  | succ k ih =>
    intro hji hlen
    rcases Nat.lt_or_ge j k with hjk | hjk
    · have hk : installs.get? k = some (installs.get ⟨k, by omega⟩) :=
        List.get?_eq_get (by omega)
      have hempty := hafter k (installs.get ⟨k, by omega⟩) hjk hk
      rw [scanDown_succ_some installs k _ hk, hempty]
      rw [if_neg (by simp)]
      exact ih (by omega) (by omega)
    · have hjeq : j = k := by omega
      subst hjeq
      rw [scanDown_succ_some installs j inst hj]
      rw [if_pos (fun h0 => hfail (List.length_eq_zero.mp h0))]

/-- As long as some index below the cursor still fails, the backward scan
cannot fall through to the `throw`. -/
theorem scanDown_ne_internal (installs : List Install) :
    ∀ i, i ≤ installs.length →
      (∃ j, j < i ∧ ∃ inst, installs.get? j = some inst ∧
        walkModel inst.prog inst.versionName (some (nhOf installs j)) ≠ []) →
      scanDown installs i ≠ CoordResult.internalError := by
  intro i
  induction i with
  | zero =>
    rintro - ⟨j, hj, -⟩
    omega
  | succ k ih =>
    rintro hlen ⟨j, hji, inst, hjget, hjfail⟩
    have hk : installs.get? k = some (installs.get ⟨k, by omega⟩) :=
      List.get?_eq_get (by omega)
    rw [scanDown_succ_some installs k _ hk]
    by_cases hfk : (walkModel (installs.get ⟨k, by omega⟩).prog
        (installs.get ⟨k, by omega⟩).versionName
        (some (nhOf installs k))).length ≠ 0
    · rw [if_pos hfk]
      exact fun hc => CoordResult.noConfusion hc
    · rw [if_neg hfk]
      refine ih (by omega) ⟨j, ?_, inst, hjget, hjfail⟩
      rcases Nat.lt_or_ge j k with h | h
      · exact h
      · exfalso
        have hjk : j = k := by omega
        subst hjk
        rw [hjget] at hk
        have hinst : inst = installs.get ⟨j, by omega⟩ := Option.some.inj hk
        push_neg at hfk
        rw [← hinst] at hfk
        exact hjfail (List.length_eq_zero.mp hfk)

/-- Reduction of the coordinator past the "next" run and the assert, at an
in-range oldest install. -/
theorem applyWithProgramMulti_min (opts : OptionsModel) (minInstall : Install)
    (hnext : (walkModel opts.nextProg "next" none).length = 0)
    (hlen : opts.olderInstalls.length ≠ 0)
    (hmin0 : opts.olderInstalls.get? 0 = some minInstall) :
    applyWithProgramMulti opts =
      if (walkModel minInstall.prog minInstall.versionName none).length = 0 then
        CoordResult.failures []
      else scanDown opts.olderInstalls opts.olderInstalls.length := by
  unfold applyWithProgramMulti
  rw [if_neg (show ¬ (walkModel opts.nextProg "next" none).length ≠ 0 by omega),
    if_neg hlen, hmin0]

/-! ## Claim C4: a clean "next" run -/

/-- C4 (counterexample).  "next" passes (declaration file, no diagnostics),
but the single older install "2.0" has a compile error: the coordinator does
*not* succeed with empty output — it checks the oldest version and scans,
returning the 2.0 failures. -/
theorem c4_next_success_counterexample :
    walkModel ⟨⟨"x", true, [0], [], []⟩, [], fun _ => ""⟩ "next" none = []
  ∧ applyWithProgramMulti ⟨⟨⟨"x", true, [0], [], []⟩, [], fun _ => ""⟩,
      [⟨"2.0", ⟨⟨"x", true, [0], [], []⟩, [⟨0, 1, "boom", true, none⟩],
        fun _ => ""⟩⟩]⟩
      ≠ CoordResult.failures [] := by decide

/-- C4 (amended).  A clean "next" run alone does not terminate the
coordinator: it must also consult the oldest configured install.  The run
returns the empty failure list iff additionally the oldest install passes;
the older versions are *not* ignored. -/
theorem c4_next_success_amended (opts : OptionsModel) (minInstall : Install)
    (hnext : walkModel opts.nextProg "next" none = [])
    (hmin0 : opts.olderInstalls.get? 0 = some minInstall)
    (hminpass : walkModel minInstall.prog minInstall.versionName none = []) :
    applyWithProgramMulti opts = CoordResult.failures [] := by
  have hlen : 0 < opts.olderInstalls.length := by
    rcases List.get?_eq_some.mp hmin0 with ⟨h, -⟩
    omega
  rw [applyWithProgramMulti_min opts minInstall (by rw [hnext]; rfl)
    (by omega) hmin0, hminpass]
  rfl

/-- Witness for C4: "next" and the oldest install both pass; the
coordinator returns the empty failure list. -/
theorem c4_next_success_witness :
    walkModel ⟨⟨"x", true, [0], [], []⟩, [], fun _ => ""⟩ "next" none = []
  ∧ applyWithProgramMulti ⟨⟨⟨"x", true, [0], [], []⟩, [], fun _ => ""⟩,
      [⟨"2.0", ⟨⟨"x", true, [0], [], []⟩, [], fun _ => ""⟩⟩]⟩
      = CoordResult.failures [] :=
  ⟨rfl, c4_next_success_amended
    ⟨⟨⟨"x", true, [0], [], []⟩, [], fun _ => ""⟩,
      [⟨"2.0", ⟨⟨"x", true, [0], [], []⟩, [], fun _ => ""⟩⟩]⟩
    ⟨"2.0", ⟨⟨"x", true, [0], [], []⟩, [], fun _ => ""⟩⟩ rfl rfl rfl⟩

/-! ## Claim C9: the bare throw after the backward scan is unreachable -/

/-- C9 (confirmed).  In the model every run of the pipeline at a fixed
version is a pure function of the inputs (the determinism precondition),
and the coordinator never reaches the bare `throw new Error()`: whenever
the backward scan is entered, the oldest install has already failed, the
scan visits index 0 last, and the failure count at a version does not
depend on the `nextHigherVersion` annotation, so some iteration returns a
non-empty failure list first. -/
theorem c9_unreachable_throw (opts : OptionsModel) :
    applyWithProgramMulti opts ≠ CoordResult.internalError := by
  by_cases h1 : (walkModel opts.nextProg "next" none).length ≠ 0
  · rw [show applyWithProgramMulti opts
        = CoordResult.failures (walkModel opts.nextProg "next" none) by
      unfold applyWithProgramMulti
      rw [if_pos h1]]
    exact fun hc => CoordResult.noConfusion hc
  · by_cases h2 : opts.olderInstalls.length = 0
    · rw [show applyWithProgramMulti opts = CoordResult.assertFailed by
        unfold applyWithProgramMulti
        rw [if_neg h1, if_pos h2]]
      exact fun hc => CoordResult.noConfusion hc
    · have hlen : 0 < opts.olderInstalls.length := Nat.pos_of_ne_zero h2
      have hmin0 : opts.olderInstalls.get? 0
          = some (opts.olderInstalls.get ⟨0, hlen⟩) := List.get?_eq_get hlen
      rw [applyWithProgramMulti_min opts _ (by omega) h2 hmin0]
      by_cases h3 : (walkModel (opts.olderInstalls.get ⟨0, hlen⟩).prog
          (opts.olderInstalls.get ⟨0, hlen⟩).versionName none).length = 0
      · rw [if_pos h3]
        exact fun hc => CoordResult.noConfusion hc
      · rw [if_neg h3]
        refine scanDown_ne_internal opts.olderInstalls opts.olderInstalls.length
          (Nat.le_refl _) ⟨0, hlen, opts.olderInstalls.get ⟨0, hlen⟩, hmin0, ?_⟩
        intro hc
        apply h3
        rw [walkModel_length_nh _ _ none (some (nhOf opts.olderInstalls 0)), hc]
        rfl

/-! ## Claim C3: the backward version scan -/

/-- C3 (counterexample).  "next" passes and the single older install "2.0"
fails with duplicate-assertion and missing-error failures.  The scan
returns exactly those failures and its `nextHigherVersion` is the literal
`"next"` — but the returned failure messages do not name that version (only
compiler-diagnostic failures embed `getIntro` text). -/
theorem c3_version_scan_counterexample :
    applyWithProgramMulti ⟨⟨⟨"x", true, [0], [], []⟩, [], fun _ => ""⟩,
        [⟨"2.0", ⟨⟨"// $ExpectError\nx; // $ExpectError", false, [0, 16],
          [⟨.singleLineComment, 0, "// $ExpectError"⟩, ⟨.newline, 15, "\n"⟩,
           ⟨.other, 16, "x"⟩, ⟨.other, 17, ";"⟩, ⟨.whitespace, 18, " "⟩,
           ⟨.singleLineComment, 19, "// $ExpectError"⟩], []⟩, [], fun _ => ""⟩⟩]⟩
      = CoordResult.failures
        [⟨16, 34, FAILURE_STRING_DUPLICATE_ASSERTION⟩,
         ⟨16, 34, FAILURE_STRING_EXPECTED_ERROR⟩]
  ∧ hasInfix "next".data FAILURE_STRING_DUPLICATE_ASSERTION.data = false
  ∧ hasInfix "next".data FAILURE_STRING_EXPECTED_ERROR.data = false := by decide

/-- C3 (amended).  When "next" passes, the oldest install fails, index `j`
fails under its loop annotation and every newer index passes, the
coordinator returns exactly the failures of index `j` (the newest failing
version), computed against the next-higher version
`nhOf`; and — provided no configured install is itself named "next" — that
annotation is the literal `"next"` exactly when `j` is the newest
configured version.  (Only compiler-diagnostic failures embed the version
names in their message; assertion-level failures do not.) -/
theorem c3_version_scan_amended (opts : OptionsModel) (minInstall inst : Install)
    (j : Nat)
    (hnext : walkModel opts.nextProg "next" none = [])
    (hmin0 : opts.olderInstalls.get? 0 = some minInstall)
    (hminfail : walkModel minInstall.prog minInstall.versionName none ≠ [])
    (hj : opts.olderInstalls.get? j = some inst)
    (hfail : walkModel inst.prog inst.versionName
      (some (nhOf opts.olderInstalls j)) ≠ [])
    (hafter : ∀ k instK, j < k → opts.olderInstalls.get? k = some instK →
      walkModel instK.prog instK.versionName (some (nhOf opts.olderInstalls k)) = [])
    (hnonext : ∀ instK ∈ opts.olderInstalls, instK.versionName ≠ "next") :
    applyWithProgramMulti opts = CoordResult.failures
        (walkModel inst.prog inst.versionName (some (nhOf opts.olderInstalls j)))
    ∧ (nhOf opts.olderInstalls j = "next" ↔ j = opts.olderInstalls.length - 1) := by
  have hjlen : j < opts.olderInstalls.length := by
    rcases List.get?_eq_some.mp hj with ⟨h, -⟩
    exact h
  constructor
  · rw [applyWithProgramMulti_min opts minInstall (by rw [hnext]; rfl)
      (by omega) hmin0]
    rw [if_neg (fun h0 => hminfail (List.length_eq_zero.mp h0))]
    exact scanDown_from opts.olderInstalls j inst hj hfail hafter
      opts.olderInstalls.length hjlen (Nat.le_refl _)
  · constructor
    · intro hnh
      by_contra hne
      have hj1 : j + 1 < opts.olderInstalls.length := by omega
      have hk : opts.olderInstalls.get? (j + 1)
          = some (opts.olderInstalls.get ⟨j + 1, hj1⟩) := List.get?_eq_get hj1
      have hval : nhOf opts.olderInstalls j
          = (opts.olderInstalls.get ⟨j + 1, hj1⟩).versionName := by
        unfold nhOf
        rw [if_neg hne, hk]
        rfl
      rw [hval] at hnh
      exact hnonext _ (List.get?_mem hk) hnh
    · intro hj1
      unfold nhOf
      rw [if_pos hj1]

/-- Witness for C3: two failing installs "1.8" (oldest) and "2.0" (newest);
"next" passes.  The scan returns the "2.0" failures with annotation
`"next"`. -/
theorem c3_version_scan_witness :
    applyWithProgramMulti ⟨⟨⟨"x", true, [0], [], []⟩, [], fun _ => ""⟩,
        [⟨"1.8", ⟨⟨"// $ExpectError\nx; // $ExpectError", false, [0, 16],
          [⟨.singleLineComment, 0, "// $ExpectError"⟩, ⟨.newline, 15, "\n"⟩,
           ⟨.other, 16, "x"⟩, ⟨.other, 17, ";"⟩, ⟨.whitespace, 18, " "⟩,
           ⟨.singleLineComment, 19, "// $ExpectError"⟩], []⟩, [], fun _ => ""⟩⟩,
         ⟨"2.0", ⟨⟨"// $ExpectError\nx; // $ExpectError", false, [0, 16],
          [⟨.singleLineComment, 0, "// $ExpectError"⟩, ⟨.newline, 15, "\n"⟩,
           ⟨.other, 16, "x"⟩, ⟨.other, 17, ";"⟩, ⟨.whitespace, 18, " "⟩,
           ⟨.singleLineComment, 19, "// $ExpectError"⟩], []⟩, [], fun _ => ""⟩⟩]⟩
      = CoordResult.failures
        [⟨16, 34, FAILURE_STRING_DUPLICATE_ASSERTION⟩,
         ⟨16, 34, FAILURE_STRING_EXPECTED_ERROR⟩]
  ∧ (nhOf [⟨"1.8", ⟨⟨"// $ExpectError\nx; // $ExpectError", false, [0, 16],
          [⟨.singleLineComment, 0, "// $ExpectError"⟩, ⟨.newline, 15, "\n"⟩,
           ⟨.other, 16, "x"⟩, ⟨.other, 17, ";"⟩, ⟨.whitespace, 18, " "⟩,
           ⟨.singleLineComment, 19, "// $ExpectError"⟩], []⟩, [], fun _ => ""⟩⟩,
         ⟨"2.0", ⟨⟨"// $ExpectError\nx; // $ExpectError", false, [0, 16],
          [⟨.singleLineComment, 0, "// $ExpectError"⟩, ⟨.newline, 15, "\n"⟩,
           ⟨.other, 16, "x"⟩, ⟨.other, 17, ";"⟩, ⟨.whitespace, 18, " "⟩,
           ⟨.singleLineComment, 19, "// $ExpectError"⟩], []⟩, [], fun _ => ""⟩⟩] 1
        = "next" ↔ 1 = 1) := by
  have T := c3_version_scan_amended
    ⟨⟨⟨"x", true, [0], [], []⟩, [], fun _ => ""⟩,
        [⟨"1.8", ⟨⟨"// $ExpectError\nx; // $ExpectError", false, [0, 16],
          [⟨.singleLineComment, 0, "// $ExpectError"⟩, ⟨.newline, 15, "\n"⟩,
           ⟨.other, 16, "x"⟩, ⟨.other, 17, ";"⟩, ⟨.whitespace, 18, " "⟩,
           ⟨.singleLineComment, 19, "// $ExpectError"⟩], []⟩, [], fun _ => ""⟩⟩,
         ⟨"2.0", ⟨⟨"// $ExpectError\nx; // $ExpectError", false, [0, 16],
          [⟨.singleLineComment, 0, "// $ExpectError"⟩, ⟨.newline, 15, "\n"⟩,
           ⟨.other, 16, "x"⟩, ⟨.other, 17, ";"⟩, ⟨.whitespace, 18, " "⟩,
           ⟨.singleLineComment, 19, "// $ExpectError"⟩], []⟩, [], fun _ => ""⟩⟩]⟩
    ⟨"1.8", ⟨⟨"// $ExpectError\nx; // $ExpectError", false, [0, 16],
          [⟨.singleLineComment, 0, "// $ExpectError"⟩, ⟨.newline, 15, "\n"⟩,
           ⟨.other, 16, "x"⟩, ⟨.other, 17, ";"⟩, ⟨.whitespace, 18, " "⟩,
           ⟨.singleLineComment, 19, "// $ExpectError"⟩], []⟩, [], fun _ => ""⟩⟩
    ⟨"2.0", ⟨⟨"// $ExpectError\nx; // $ExpectError", false, [0, 16],
          [⟨.singleLineComment, 0, "// $ExpectError"⟩, ⟨.newline, 15, "\n"⟩,
           ⟨.other, 16, "x"⟩, ⟨.other, 17, ";"⟩, ⟨.whitespace, 18, " "⟩,
           ⟨.singleLineComment, 19, "// $ExpectError"⟩], []⟩, [], fun _ => ""⟩⟩
    1 rfl rfl (by decide) rfl (by decide)
    (fun k instK hk hget => by
      rw [List.get?_eq_none.mpr hk] at hget
      exact Option.noConfusion hget)
    (by decide)
  refine ⟨?_, ?_, fun _ => rfl⟩
  · rw [T.1]
    decide
  · intro h
    rfl
